import Mathlib

/-!
# msgolib: serial frame reader, config readers and e-mail header checks

A shallow embedding of the Go packages `smartparallel`, `webutils`,
`fileutils` and `emailutils` of `mspeculatrix/msgolib`, with the properties
of their documented behaviour stated and proved over that embedding.

Conventions of the embedding:

* a Go run either returns, panics, or is still in its loop when the fuel
  given to the model is used up (`Outcome`); code without a loop that can
  spin uses `Option`, where `none` is a run-time panic;
* a byte slice is its backing array (from the slice's first element up to
  its capacity) together with its length;
* the text produced from raw bytes (`string(readBuf[:charIdx])`) is a list
  of bytes; the strings of the text utilities are Lean strings, that is
  valid UTF-8 text, on which cutting at the ASCII byte `=` and cutting at
  the character `=` coincide.
-/

/-- Result of running Go code that may loop: `timeout` says the loop was still
running when the fuel ran out, `panic` is a run-time panic. -/
inductive Outcome (α : Type) where
  | timeout : Outcome α
  | panic : Outcome α
  | ret : α → Outcome α
deriving DecidableEq, Repr

/-- Apply a function to the returned value of a run. -/
def Outcome.map {α β : Type} (f : α → β) : Outcome α → Outcome β
  | .timeout => .timeout
  | .panic => .panic
  | .ret a => .ret (f a)

namespace smartparallel

/-- A byte. -/
abbrev Byte := Fin 256

/-- `ReadBufSize : Default size for read buffer`. -/
def ReadBufSize : Nat := 1024

/-- One result of `sPort.Read(buf)` on the one-byte buffer `buf`: the count
`n`, the byte the call stored in `buf[0]` (looked at only when `n > 0`), and
the error, given by its `Error()` text, or `none` for a nil error. -/
structure ReadResult where
  n : Nat
  data : Byte
  err : Option String
deriving DecidableEq, Repr

/-- The port, seen from the reader: the results of its successive `Read`
calls, `p i` being the result of the call number `i`. -/
def Port : Type := Nat → ReadResult

/-- Result of the next `Read` call. -/
def Port.head (p : Port) : ReadResult := p 0

/-- The port after one `Read` call. -/
def Port.tail (p : Port) : Port := fun i => p (i + 1)

/-- The port that first gives the results of `l`, then behaves as `p`. -/
def Port.feed : List ReadResult → Port → Port
  | [], p => p
  | r :: rs, p => fun i =>
    match i with
    | 0 => r
    | j + 1 => Port.feed rs p j

/-- The first `k` results of the port. -/
def Port.take : Nat → Port → List ReadResult
  | 0, _ => []
  | k + 1, p => p.head :: Port.take k p.tail

/-- A successful read of the single byte `b`. -/
def ok (b : Byte) : ReadResult := { n := 1, data := b, err := none }

/-- A read of zero bytes that reports the error `e`. -/
def failed (e : String) : ReadResult := { n := 0, data := 0, err := some e }

/-- A read of zero bytes and no error. -/
def idle : ReadResult := { n := 0, data := 0, err := none }

/-- The byte a read delivered, if it delivered one. -/
def ReadResult.delivered (r : ReadResult) : Option Byte :=
  if 0 < r.n then some r.data else none

/-- A Go `[]byte`: `arr` is the backing array from the slice's first element
to its capacity, `len` the slice's length. -/
structure Slice where
  arr : List Byte
  len : Nat
deriving DecidableEq, Repr

/-- Go `cap(s)`. -/
def Slice.cap (s : Slice) : Nat := s.arr.length

/-- The elements of the slice, `s[0] .. s[len-1]`. -/
def Slice.bytes (s : Slice) : List Byte := s.arr.take s.len

/-- Go `s[:hi]`; `none` is the panic "slice bounds out of range". -/
def Slice.upTo (s : Slice) (hi : Nat) : Option Slice :=
  if hi ≤ s.cap then some { arr := s.arr, len := hi } else none

/-- Go `s[i]`; `none` is the panic "index out of range". -/
def Slice.index (s : Slice) (i : Nat) : Option Byte :=
  if i < s.len then s.arr[i]? else none

/-- Go `make([]byte, n)`. -/
def make (n : Nat) : Slice := { arr := List.replicate n 0, len := n }

/-- Go `append(s, b)`. With room left the byte is stored in the backing array
in place; otherwise a new array is allocated, of capacity `grow (cap s)` (the
run-time's growth rule, a parameter here) and at least `len s + 1`. -/
def append (grow : Nat → Nat) (s : Slice) (b : Byte) : Slice :=
  if s.len < s.cap then
    { arr := s.arr.set s.len b, len := s.len + 1 }
  else
    { arr := s.bytes ++ b :: List.replicate (grow s.cap - (s.len + 1)) 0, len := s.len + 1 }

/-- Whether `append(s, b)` stores in place (true) or reallocates (false). -/
def appendInPlace (s : Slice) : Bool := decide (s.len < s.cap)

/-- The variables of `CheckSerialInput`, with three ghost fields: the number
of `Read` calls made so far, the contents of the backing array of the
caller's slice, and whether `readBuf` still shares that array. -/
structure State where
  readBuf : Slice
  buf : Slice
  charIdx : Nat
  done : Bool
  reads : Nat
  callerArr : List Byte
  shared : Bool
deriving DecidableEq, Repr

/-- The `else` branch of `if buf[0] == 10`: append the byte, count it, and
stop at `ReadBufSize`. -/
def store (grow : Nat → Nat) (b : Byte) (st : State) : State :=
  let inPlace := appendInPlace st.readBuf
  let rb := append grow st.readBuf b
  let st1 : State :=
    { st with
      readBuf := rb
      callerArr := if st.shared && inPlace then rb.arr else st.callerArr
      shared := st.shared && inPlace
      charIdx := st.charIdx + 1 }
  if st1.charIdx = ReadBufSize then { st1 with done := true } else st1

/-- The `if n > 0` block of the loop body. -/
def received (grow : Nat → Nat) (st : State) : Option State :=
  match st.buf.index 0 with
  | none => none
  | some b => if b = 10 then some { st with done := true } else some (store grow b st)

/-- The `if err != nil` block of the loop body; both branches of the test on
`err.Error() == "EOF"` are empty. -/
def onErr (err : Option String) (st : State) : State :=
  match err with
  | none => st
  | some e =>
    let st1 : State := { st with done := true }
    if e = "EOF" then st1 else st1

/-- One pass through the loop body, `r` being what `sPort.Read(buf)` gives. -/
def body (grow : Nat → Nat) (r : ReadResult) (st : State) : Option State :=
  let st1 : State :=
    { st with
      buf := if 0 < r.n then { st.buf with arr := st.buf.arr.set 0 r.data } else st.buf
      reads := st.reads + 1 }
  if 0 < r.n then
    match received grow st1 with
    | none => none
    | some st2 => some (onErr r.err st2)
  else some (onErr r.err st1)

/-- The loop `for !done { ... }`; each pass uses one unit of fuel and one
result of the port. -/
def loop (grow : Nat → Nat) : Nat → Port → State → Outcome State
  | 0, _, st => if st.done then .ret st else .timeout
  | fuel + 1, p, st =>
    if st.done then .ret st
    else
      match body grow p.head st with
      | none => .panic
      | some st1 => loop grow fuel p.tail st1

/-- What a call leaves behind: the two returned values and the ghost record of
the reads made and of the caller's backing array. -/
structure Result where
  count : Nat
  text : List Byte
  reads : Nat
  callerArr : List Byte
deriving DecidableEq, Repr

/-- The whole of `CheckSerialInput`, ghost fields included. -/
def CheckSerialInput.exec (grow : Nat → Nat) (fuel : Nat) (sPort : Port) (readBuf : Slice) :
    Outcome Result :=
  match readBuf.upTo 0 with
  | none => .panic
  | some rb =>
    let st0 : State :=
      { readBuf := rb, buf := make 1, charIdx := 0, done := false
        reads := 0, callerArr := readBuf.arr, shared := true }
    match loop grow fuel sPort st0 with
    | .timeout => .timeout
    | .panic => .panic
    | .ret st =>
      match st.readBuf.upTo st.charIdx with
      | none => .panic
      | some s =>
        .ret { count := st.charIdx, text := s.bytes, reads := st.reads, callerArr := st.callerArr }

/-- `CheckSerialInput : pull next nul-terminated string from serial port`: the
pair `(charIdx, string(readBuf[:charIdx]))` it returns. -/
def CheckSerialInput (grow : Nat → Nat) (fuel : Nat) (sPort : Port) (readBuf : Slice) :
    Outcome (Nat × List Byte) :=
  (CheckSerialInput.exec grow fuel sPort readBuf).map (fun r => (r.count, r.text))

/-- The frame the loop builds, as a function of the port alone: from the bytes
`acc` accumulated so far and `k` reads made, the accumulated bytes and the
number of reads when the loop stops. Used to describe `loop`; the link with
the code is `loop_scan`. -/
def scan : Nat → Port → List Byte → Nat → Outcome (List Byte × Nat)
  | 0, _, _, _ => .timeout
  | fuel + 1, p, acc, k =>
    if 0 < p.head.n then
      if p.head.data = 10 then .ret (acc, k + 1)
      else if acc.length + 1 = ReadBufSize then .ret (acc ++ [p.head.data], k + 1)
      else if p.head.err.isSome then .ret (acc ++ [p.head.data], k + 1)
      else scan fuel p.tail (acc ++ [p.head.data]) (k + 1)
    else if p.head.err.isSome then .ret (acc, k + 1)
    else scan fuel p.tail acc (k + 1)

/-- The loop invariant of `CheckSerialInput`: `readBuf` has `charIdx` elements
within its capacity, `buf` is a one-byte slice, and the count is below
`ReadBufSize` while the loop runs and at most `ReadBufSize` at its end. -/
structure Inv (st : State) : Prop where
  len_eq : st.readBuf.len = st.charIdx
  len_le : st.readBuf.len ≤ st.readBuf.cap
  buf_len : st.buf.len = 1
  buf_cap : st.buf.arr.length = 1
  below : st.done = false → st.charIdx < ReadBufSize
  atMost : st.charIdx ≤ ReadBufSize

/-- `IdleInserted l m`: the list of read results `m` is `l` with finitely many
reads of zero bytes and no error inserted, anywhere. -/
inductive IdleInserted : List ReadResult → List ReadResult → Prop where
  | nil : IdleInserted [] []
  | keep (r : ReadResult) {l m : List ReadResult} :
      IdleInserted l m → IdleInserted (r :: l) (r :: m)
  | skip (r : ReadResult) {l m : List ReadResult} :
      r.n = 0 → r.err = none → IdleInserted l m → IdleInserted l (r :: m)

/-- The three assignments `done = true` of the loop: after a byte 10, after
`charIdx == ReadBufSize`, and after `err != nil`. -/
inductive Stop where
  | newline : Stop
  | cap : Stop
  | error : Stop
deriving DecidableEq, Repr

/-- The result of the last `Read` call of a run that made `res.reads` calls. -/
def lastRead (p : Port) (res : Result) : ReadResult := p (res.reads - 1)

/-- `StoppedBy why p res`: in the last pass of the loop of the run on `p` that
returned `res`, the assignment `done = true` of the kind `why` was executed.
The last pass is the one of the last read; it reaches the first assignment
when that read delivered the byte 10, the second when it delivered another
byte and the count became `ReadBufSize`, the third when it reported an
error. -/
def StoppedBy (why : Stop) (p : Port) (res : Result) : Bool :=
  match why with
  | .newline => decide (0 < (lastRead p res).n) && decide ((lastRead p res).data = 10)
  | .cap =>
    decide (0 < (lastRead p res).n) && decide ((lastRead p res).data ≠ 10) &&
      decide (res.count = ReadBufSize)
  | .error => (lastRead p res).err.isSome

/-- `SameReturn a b`: there are two runs, the first stopped for the reason `a`
and the second for the reason `b`, that return the same count and text. -/
def SameReturn (a b : Stop) : Prop :=
  ∃ (grow : Nat → Nat) (fuel : Nat) (p1 p2 : Port) (buf1 buf2 : Slice) (res1 res2 : Result),
    CheckSerialInput.exec grow fuel p1 buf1 = .ret res1 ∧
    CheckSerialInput.exec grow fuel p2 buf2 = .ret res2 ∧
    StoppedBy a p1 res1 = true ∧ StoppedBy b p2 res2 = true ∧
    res1.count = res2.count ∧ res1.text = res2.text

/-- The caller's slice after a call: the slice header was passed by value, so
length and capacity are those of before the call; the backing array is as
the call left it. -/
def callerView (readBuf : Slice) (res : Result) : Slice :=
  { arr := res.callerArr, len := readBuf.len }

/-- The invariant of the loop on the caller's backing array, `arr0` being its
contents before the call: it holds the accumulated bytes as far as they fit
its capacity and its old contents beyond; `readBuf` is that array while
shared, and stops being shared only once the array is full. -/
structure Mem (arr0 : List Byte) (st : State) : Prop where
  caller : st.callerArr =
    st.readBuf.bytes.take arr0.length ++ arr0.drop (min st.readBuf.len arr0.length)
  same : st.shared = true → st.readBuf.arr = st.callerArr
  grown : st.shared = false → arr0.length ≤ st.readBuf.len

end smartparallel

/-! ## Go strings, string functions and maps -/

namespace strings

/-- Core of `strings.Split(s, sep)` for a one-character separator, on the
characters of `s`: the pieces between the occurrences of `sep`, always at
least one piece. -/
def splitChars (sep : Char) : List Char → List (List Char)
  | [] => [[]]
  | c :: cs =>
    if c = sep then [] :: splitChars sep cs
    else
      match splitChars sep cs with
      | [] => [[c]]
      | p :: ps => (c :: p) :: ps

/-- Go `strings.Split(s, sep)` for a separator of one ASCII character. -/
def Split (s : String) (sep : Char) : List String :=
  (splitChars sep s.data).map String.mk

/-- Go `strings.Join(elems, sep)`. -/
def Join : List String → String → String
  | [], _ => ""
  | [a], _ => a
  | a :: b :: rest, sep => a ++ sep ++ Join (b :: rest) sep

/-- Go `unicode.IsSpace`: the characters with the Unicode White_Space
property. -/
def isSpace (c : Char) : Bool :=
  let n := c.toNat
  (9 ≤ n && n ≤ 13) || n = 32 || n = 133 || n = 160 || n = 5760 ||
    (8192 ≤ n && n ≤ 8202) || n = 8232 || n = 8233 || n = 8239 || n = 8287 || n = 12288

/-- Remove the leading white space of a list of characters. -/
def trimLeft (l : List Char) : List Char := l.dropWhile isSpace

/-- Remove the trailing white space of a list of characters. -/
def trimRight (l : List Char) : List Char := (l.reverse.dropWhile isSpace).reverse

/-- Go `strings.TrimSpace(s)`: `s` without its leading and trailing white
space. -/
def TrimSpace (s : String) : String := String.mk (trimRight (trimLeft s.data))

end strings

/-- Go `map[string]string`: the nil map, or an allocated map with its
entries (at most one per key, the most recently written first). -/
inductive GoMap where
  | nil : GoMap
  | mk (entries : List (String × String)) : GoMap
deriving DecidableEq, Repr

/-- Entries of the map; the nil map has none. -/
def GoMap.entries : GoMap → List (String × String)
  | .nil => []
  | .mk es => es

/-- Go `v, ok := m[k]`, with `none` when `ok` is false. -/
def GoMap.lookup (m : GoMap) (k : String) : Option String :=
  (m.entries.find? (fun e => e.1 = k)).map (fun e => e.2)

/-- Go `m[k]` as a value: the zero value `""` when the key is absent. -/
def GoMap.get (m : GoMap) (k : String) : String := (m.lookup k).getD ""

/-- Go `m[k] = v`; `none` is the panic "assignment to entry in nil map". -/
def GoMap.set (m : GoMap) (k v : String) : Option GoMap :=
  match m with
  | .nil => none
  | .mk es => some (.mk ((k, v) :: es.filter (fun e => e.1 ≠ k)))

/-! ## Package webutils -/

namespace webutils

/-- Body of the loop of `ParseParams` for one item: the `switch` on
`len(itemArr)` with its three assignments to `params`. -/
def paramsStep (params : GoMap) (item : String) : Option GoMap :=
  let itemArr := strings.Split item '='
  match itemArr with
  | [] => none
  | [k] => params.set k ""
  | [k, v] => params.set k v
  | k :: rest => params.set k (strings.Join rest "=")

/-- `ParseParams - takes a slice of strings, which are assumed to be in the
format key=value, and returns a map`. The named result `params` is never
allocated, so it starts as, and is returned as, the nil map unless assigned
to. The result is the pair `(params, err)`, `err` given by its message;
`none` is a panic. -/
def ParseParams (items : List String) : Option (GoMap × Option String) :=
  let params : GoMap := .nil
  let err : Option String := none
  if items.length = 0 then some (params, some "empty list")
  else
    match items.foldlM paramsStep params with
    | none => none
    | some params1 => some (params1, err)

/-- The text after the first `?` of a query. -/
def afterQuestion (query : String) : String :=
  String.mk ((query.data.dropWhile (fun c => decide (c ≠ '?'))).drop 1)

/-- Body of the loop of `SimpleParseQuery` over the parsed values, for the key
`kv.1` with the values `kv.2`; `none` is a panic, of the assignment to
`params` or of `v[0]`. -/
def queryStep (params : GoMap) (kv : String × List String) : Option GoMap :=
  let k := kv.1
  let v := kv.2
  if 1 < v.length then params.set k ("[" ++ strings.Join v " " ++ "]")
  else
    match v with
    | [] => none
    | x :: _ => params.set k x

/-- The `switch` of `SimpleParseQuery` on the parts of the query around `?`:
the error message of the cases that return at once, or the string to
parse. -/
def queryString (parts : List String) : Except String String :=
  match parts with
  | [] => .error "weird shit happened"
  | [_] => .error "no query"
  | [_, q] => .ok q
  | _ :: rest => .ok (strings.Join rest "?")

/-- `SimpleParseQuery - uses the builtin url.ParseQuery() method to parse the
query string`. The library function `url.ParseQuery` is a parameter: for a
string, the error it reports, or the parsed values as pairs of a key and its
values, in the order in which the loop visits them. As in `ParseParams` the
named result `params` is never allocated. The result is the pair
`(params, err)`; `none` is a panic. -/
def SimpleParseQuery (ParseQuery : String → Except String (List (String × List String)))
    (query : String) : Option (GoMap × Option String) :=
  let params : GoMap := .nil
  if query.utf8ByteSize < 3 then some (params, some "query too short")
  else
    let parts := strings.Split query '?'
    match queryString parts with
    | .error e => some (params, some e)
    | .ok queryStr =>
      match ParseQuery queryStr with
      | .error e => some (params, some ("simpleparsequery : " ++ e))
      | .ok items =>
        match items.foldlM queryStep params with
        | none => none
        | some params1 => some (params1, none)

end webutils

/-! ## Package fileutils -/

namespace fileutils

/-- The characters that start a comment line. -/
def commentChars : List String := ["#", ";", "/"]

/-- Go `ln[0:1]`: the first byte of `ln` as a string, `none` being the panic
"slice bounds out of range" on the empty string. For a first character that
is not ASCII the one-byte string is not valid text; it is represented by the
one-character string, which like it differs from every ASCII string. -/
def firstByte (ln : String) : Option String :=
  match ln.data with
  | [] => none
  | c :: _ => some (String.singleton c)

/-- `isComment() checks to see if a supplied string (assumed to be a line
from a file) starts with a character that would qualify it as a comment
line`. -/
def isComment (ln : String) : Option Bool :=
  commentChars.foldlM
    (fun comment testchar =>
      match firstByte ln with
      | none => none
      | some h => some (if h = testchar then true else comment))
    false

/-- Body of the scanner loop of `ReadConfigFile` for one line of the file. -/
def lineStep (data : GoMap) (text : String) : Option GoMap :=
  let line := strings.TrimSpace text
  if 0 < line.length then
    match isComment line with
    | none => none
    | some true => some data
    | some false =>
      let items := strings.Split line '='
      match items with
      | [] => none
      | [k] => data.set (strings.TrimSpace k) ""
      | [k, v] => data.set (strings.TrimSpace k) (strings.TrimSpace v)
      | k :: rest => data.set (strings.TrimSpace k) (strings.TrimSpace (strings.Join rest "="))
  else some data

/-- Go `bufio.MaxScanTokenSize = 64 * 1024`: the size up to which the buffer
of a `bufio.Scanner` grows, and so the largest line, its newline included,
that `scanner.Scan()` can deliver. -/
def MaxScanTokenSize : Nat := 64 * 1024

/-- Whether a line of the file, with its newline, fits the scanner's buffer. -/
def fits (line : String) : Bool := decide (line.utf8ByteSize + 1 ≤ MaxScanTokenSize)

/-- Go `dropCR` of `bufio.ScanLines`: the line without a final carriage
return. -/
def dropCR (line : String) : String :=
  if line.data.getLast? = some '\r' then String.mk line.data.dropLast else line

/-- What the loop `for scanner.Scan() { ... scanner.Text() ... }` sees of a
file with the given lines (the texts between its newlines): the lines in
order, each without its final carriage return, up to the first line that
does not fit the buffer. There `Scan` returns false and keeps the error
`bufio.ErrTooLong` in the scanner, as it returns false at the end of the
file; `ReadConfigFile` never calls `scanner.Err()`, so the two look alike to
it. -/
def scanLines : List String → List String
  | [] => []
  | l :: ls => if fits l then dropCR l :: scanLines ls else []

/-- `ReadConfigFile - reads a configuration file where settings are stored as
key/value pairs separated by =. Returns a map.` The file is given by the
error of `os.Open`, or by its lines, which the scanner loop then goes
through. The result is the pair `(data, err)`; `none` is a panic. -/
def ReadConfigFile (file : Except String (List String)) : Option (GoMap × Option String) :=
  let data : GoMap := .mk []
  match file with
  | .error e => some (data, some ("readcfgfile : " ++ e))
  | .ok lines =>
    match (scanLines lines).foldlM lineStep data with
    | none => none
    | some data1 => some (data1, none)

/-- A blank line: nothing but white space. -/
def isBlank (text : String) : Bool := (strings.TrimSpace text).data.isEmpty

/-- A comment line: after trimming, its first character is `#`, `;` or `/`. -/
def startsComment (text : String) : Bool :=
  match (strings.TrimSpace text).data with
  | [] => false
  | c :: _ => c = '#' || c = ';' || c = '/'

/-- A line that is neither blank nor a comment. -/
def contributes (text : String) : Bool := !isBlank text && !startsComment text

/-- The text before the first `=` of a line (the whole line when it has
none). -/
def beforeEq (text : String) : String :=
  String.mk (text.data.takeWhile (fun c => decide (c ≠ '=')))

/-- The text after the first `=` of a line, further `=` kept in place. -/
def afterEq (text : String) : String :=
  String.mk ((text.data.dropWhile (fun c => decide (c ≠ '='))).drop 1)

/-- Key of a line, as documented: the trimmed text before its first `=`. -/
def specKey (text : String) : String := strings.TrimSpace (beforeEq text)

/-- Value of a line, as documented: the trimmed text after its first `=`, or
the empty string when the line has no `=`. -/
def specValue (text : String) : String :=
  if '=' ∈ text.data then strings.TrimSpace (afterEq text) else ""

/-- The map the documentation describes for a file with the given lines: each
line that is neither blank nor a comment writes its entry, in the order of
the file. -/
def specConfig (lines : List String) : GoMap :=
  lines.foldl
    (fun m text =>
      if contributes text then
        GoMap.mk ((specKey text, specValue text) ::
          m.entries.filter (fun e => e.1 ≠ specKey text))
      else m)
    (.mk [])

end fileutils

/-! ## Package emailutils -/

namespace emailutils

/-- The keys an e-mail configuration is checked for. -/
def ConfigKeys : List String := ["host", "port", "user", "pass", "use_tls"]

/-- The e-mail headers. -/
structure EmailHeader where
  Name : String
  From : String
  To : List String
  Subject : String
deriving DecidableEq, Repr

/-- `CheckHeaders() checks to see if the essential headers have values`:
`none` is the nil error, `some msg` an error with that message. -/
def EmailHeader.CheckHeaders (hdr : EmailHeader) : Option String :=
  let errs0 : List String := []
  let errs1 := if hdr.From = "" then errs0 ++ ["Header from field empty"] else errs0
  let errs2 := if hdr.To.length = 0 then errs1 ++ ["Header to field empty"] else errs1
  let errs3 := if hdr.Subject = "" then errs2 ++ ["Header subject empty"] else errs2
  if 0 < errs3.length then some (strings.Join errs3 "; ") else none

/-- The messages for the missing header fields, in the order from, to,
subject. -/
def missingHeaders (hdr : EmailHeader) : List String :=
  (if hdr.From = "" then ["Header from field empty"] else []) ++
  (if hdr.To = [] then ["Header to field empty"] else []) ++
  (if hdr.Subject = "" then ["Header subject empty"] else [])

/-- Body of the loop over `ConfigKeys` in `ReadConfigFile`, on the pair of the
configuration map and the error messages collected so far. -/
def keyStep (acc : GoMap × List String) (v : String) : Option (GoMap × List String) :=
  let emailCfg := acc.1
  let errs := acc.2
  if (emailCfg.get v).length = 0 then
    if v = "port" then
      match emailCfg.set "port" "587" with
      | none => none
      | some cfg1 =>
        if cfg1.get "use_tls" = "yes" then
          match cfg1.set "port" "465" with
          | none => none
          | some cfg2 => some (cfg2, errs)
        else some (cfg1, errs)
    else if v = "use_tls" then
      match emailCfg.set "use_tls" "no" with
      | none => none
      | some cfg1 => some (cfg1, errs)
    else some (emailCfg, errs ++ ["Missing config value: " ++ v])
  else some (emailCfg, errs)

/-- The error messages `ReadConfigFile` collects for the map `m` and the file
reader's error `err`: one for a failed read, then one for each of `host`,
`user`, `pass` that is absent or empty. -/
def missingConfig (m : GoMap) (err : Option String) : List String :=
  (if err ≠ none then ["Error reading email config file"] else []) ++
  (if m.get "host" = "" then ["Missing config value: host"] else []) ++
  (if m.get "user" = "" then ["Missing config value: user"] else []) ++
  (if m.get "pass" = "" then ["Missing config value: pass"] else [])

/-- The part of `ReadConfigFile` after the call of the file reader, whose
result is `(emailCfg, err)`. -/
def ReadConfigFile.after (emailCfg : GoMap) (err : Option String) :
    Option (GoMap × Option String) :=
  let errs0 : List String := []
  let errs1 := if err ≠ none then errs0 ++ ["Error reading email config file"] else errs0
  match ConfigKeys.foldlM keyStep (emailCfg, errs1) with
  | none => none
  | some (cfg, errs) =>
    some (cfg, if 0 < errs.length then some (strings.Join errs "; ") else err)

/-- `ReadConfigFile() reads a configuration file using my own
fileutils.ReadConfigFile() function.` -/
def ReadConfigFile (cfgFile : Except String (List String)) : Option (GoMap × Option String) :=
  match fileutils.ReadConfigFile cfgFile with
  | none => none
  | some (emailCfg, err) => ReadConfigFile.after emailCfg err

end emailutils

/-! ## Theorems: the serial frame reader -/

namespace smartparallel

theorem Port.head_feed_cons (r : ReadResult) (rs : List ReadResult) (p : Port) :
    (Port.feed (r :: rs) p).head = r := rfl

theorem Port.tail_feed_cons (r : ReadResult) (rs : List ReadResult) (p : Port) :
    (Port.feed (r :: rs) p).tail = Port.feed rs p := rfl

theorem Port.feed_nil (p : Port) : Port.feed [] p = p := rfl

theorem Port.feed_append (l1 l2 : List ReadResult) (p : Port) :
    Port.feed (l1 ++ l2) p = Port.feed l1 (Port.feed l2 p) := by
  induction l1 with
  | nil => rfl
  | cons r rs ih =>
    funext i
    cases i with
    | zero => rfl
    | succ j => exact congrFun ih j

theorem take_set_succ (l : List Byte) (n : Nat) (b : Byte) (h : n < l.length) :
    (l.set n b).take (n + 1) = l.take n ++ [b] := by
  induction l generalizing n with
  | nil => simp at h
  | cons a as ih =>
    cases n with
    | zero => simp
    | succ m =>
      simp only [List.length_cons, Nat.add_lt_add_iff_right] at h
      simp [List.set, List.take, ih m h]

theorem append_len (grow : Nat → Nat) (s : Slice) (b : Byte) :
    (append grow s b).len = s.len + 1 := by
  unfold append; split <;> rfl

theorem append_bytes (grow : Nat → Nat) (s : Slice) (b : Byte) (h : s.len ≤ s.cap) :
    (append grow s b).bytes = s.bytes ++ [b] := by
  unfold append
  split
  · rename_i hlt
    simp only [Slice.bytes]
    exact take_set_succ s.arr s.len b hlt
  · simp only [Slice.bytes]
    have hl : (s.arr.take s.len).length = s.len := by
      simp only [List.length_take]; exact Nat.min_eq_left h
    rw [List.take_append_eq_append_take, hl]
    simp

theorem append_cap (grow : Nat → Nat) (s : Slice) (b : Byte) (h : s.len ≤ s.cap) :
    (append grow s b).len ≤ (append grow s b).cap := by
  unfold append
  split
  · rename_i hlt
    simp only [Slice.cap, List.length_set]
    exact hlt
  · simp only [Slice.cap, Slice.bytes, List.length_append, List.length_take, List.length_cons,
      List.length_replicate]
    have : min s.len s.arr.length = s.len := Nat.min_eq_left h
    omega

theorem bytes_length (s : Slice) (h : s.len ≤ s.cap) : s.bytes.length = s.len := by
  simp only [Slice.bytes, List.length_take]; exact Nat.min_eq_left h

theorem onErr_readBuf (err : Option String) (st : State) :
    (onErr err st).readBuf = st.readBuf ∧ (onErr err st).buf = st.buf ∧
    (onErr err st).charIdx = st.charIdx ∧ (onErr err st).reads = st.reads ∧
    (onErr err st).callerArr = st.callerArr ∧ (onErr err st).shared = st.shared ∧
    (onErr err st).done = (st.done || err.isSome) := by
  cases err with
  | none => simp [onErr]
  | some e => simp [onErr]

theorem onErr_inv (err : Option String) (st : State) (h : Inv st) : Inv (onErr err st) := by
  obtain ⟨h1, h2, h3, h4, h5, h6, h7⟩ := onErr_readBuf err st
  constructor
  · rw [h1, h3]; exact h.len_eq
  · rw [h1]; exact h.len_le
  · rw [h2]; exact h.buf_len
  · rw [h2]; exact h.buf_cap
  · intro hd
    rw [h3]
    rw [h7] at hd
    cases hst : st.done with
    | true => rw [hst] at hd; simp at hd
    | false => exact h.below hst
  · rw [h3]; exact h.atMost

theorem store_spec (grow : Nat → Nat) (b : Byte) (st : State) (h : Inv st)
    (hd : st.done = false) :
    Inv (store grow b st) ∧ (store grow b st).reads = st.reads ∧
    (store grow b st).readBuf.bytes = st.readBuf.bytes ++ [b] ∧
    (store grow b st).done = decide (st.charIdx + 1 = ReadBufSize) := by
  have hlt := h.below hd
  by_cases hc : st.charIdx + 1 = ReadBufSize
  · simp only [store, hc, if_true, decide_True]
    refine ⟨⟨?_, ?_, h.buf_len, h.buf_cap, ?_, ?_⟩, trivial, append_bytes grow _ b h.len_le, trivial⟩
    · simp only [append_len, h.len_eq, hc]
    · exact append_cap grow _ b h.len_le
    · intro hf; simp at hf
    · exact Nat.le_refl _
  · simp only [store, hc, if_false, decide_False]
    refine ⟨⟨?_, ?_, h.buf_len, h.buf_cap, ?_, ?_⟩, trivial, append_bytes grow _ b h.len_le, hd⟩
    · simp only [append_len, h.len_eq]
    · exact append_cap grow _ b h.len_le
    · intro _; show st.charIdx + 1 < ReadBufSize; omega
    · show st.charIdx + 1 ≤ ReadBufSize; omega

/-- One pass of the loop body from a state satisfying the invariant: it does
not panic, keeps the invariant, counts one read, appends the delivered byte
unless it is the terminator, and sets `done` exactly on a terminator, a full
buffer or an error. -/
theorem body_spec (grow : Nat → Nat) (r : ReadResult) (st : State) (h : Inv st)
    (hd : st.done = false) :
    ∃ st1, body grow r st = some st1 ∧ Inv st1 ∧ st1.reads = st.reads + 1 ∧
      st1.readBuf.bytes =
        st.readBuf.bytes ++ (if 0 < r.n ∧ r.data ≠ 10 then [r.data] else []) ∧
      st1.done = decide ((0 < r.n ∧ (r.data = 10 ∨ st.charIdx + 1 = ReadBufSize)) ∨
        r.err.isSome = true) := by
  by_cases hn : 0 < r.n
  · obtain ⟨st0, hst0⟩ : ∃ x : State, x =
        { st with buf := { st.buf with arr := st.buf.arr.set 0 r.data }, reads := st.reads + 1 } :=
      ⟨_, rfl⟩
    have hidx : st0.buf.index 0 = some r.data := by
      have h1 := h.buf_len
      have h2 := h.buf_cap
      rw [hst0]
      simp only [Slice.index, h1]
      cases harr : st.buf.arr with
      | nil => rw [harr] at h2; simp at h2
      | cons a as => simp
    have hinv0 : Inv st0 := by
      rw [hst0]
      exact ⟨h.len_eq, h.len_le, h.buf_len, by simp [h.buf_cap], h.below, h.atMost⟩
    have hd0 : st0.done = false := by rw [hst0]; exact hd
    have hr0 : st0.reads = st.reads + 1 := by rw [hst0]
    have hb0 : st0.readBuf = st.readBuf := by rw [hst0]
    have hc0 : st0.charIdx = st.charIdx := by rw [hst0]
    have hbody : body grow r st =
        (match received grow st0 with
          | none => none
          | some st2 => some (onErr r.err st2)) := by
      rw [hst0]; simp only [body, hn, if_true]
    by_cases hb : r.data = 10
    · have hrec : received grow st0 = some { st0 with done := true } := by
        unfold received; rw [hidx]; exact if_pos hb
      refine ⟨onErr r.err { st0 with done := true }, ?_, ?_, ?_, ?_, ?_⟩
      · rw [hbody, hrec]
      · apply onErr_inv
        exact ⟨hinv0.len_eq, hinv0.len_le, hinv0.buf_len, hinv0.buf_cap,
          by intro hf; simp at hf, hinv0.atMost⟩
      · rw [(onErr_readBuf _ _).2.2.2.1]; exact hr0
      · rw [(onErr_readBuf _ _).1]; simp [hb, hb0]
      · rw [(onErr_readBuf _ _).2.2.2.2.2.2]; simp [hn, hb]
    · have hrec : received grow st0 = some (store grow r.data st0) := by
        unfold received; rw [hidx]; exact if_neg hb
      obtain ⟨s1, s2, s3, s4⟩ := store_spec grow r.data st0 hinv0 hd0
      refine ⟨onErr r.err (store grow r.data st0), ?_, onErr_inv _ _ s1, ?_, ?_, ?_⟩
      · rw [hbody, hrec]
      · rw [(onErr_readBuf _ _).2.2.2.1, s2, hr0]
      · rw [(onErr_readBuf _ _).1, s3, hb0]; simp [hn, hb]
      · rw [(onErr_readBuf _ _).2.2.2.2.2.2, s4, hc0]; simp [hn, hb]
  · refine ⟨onErr r.err { st with reads := st.reads + 1 }, ?_, ?_, ?_, ?_, ?_⟩
    · simp only [body, hn, if_false]
    · apply onErr_inv
      exact ⟨h.len_eq, h.len_le, h.buf_len, h.buf_cap, h.below, h.atMost⟩
    · rw [(onErr_readBuf _ _).2.2.2.1]
    · rw [(onErr_readBuf _ _).1]; simp [hn]
    · rw [(onErr_readBuf _ _).2.2.2.2.2.2]; simp [hn, hd]

theorem loop_done (grow : Nat → Nat) (fuel : Nat) (p : Port) (st : State)
    (hd : st.done = true) : loop grow fuel p st = .ret st := by
  cases fuel with
  | zero => simp [loop, hd]
  | succ f => simp [loop, hd]

/-- The loop of the code computes `scan`: from a state satisfying the
invariant the loop never panics, times out exactly when `scan` does, and
otherwise ends in a state whose buffer holds the bytes `scan` gives, after
the number of reads `scan` gives. -/
theorem loop_scan (grow : Nat → Nat) (fuel : Nat) (p : Port) (st : State) (h : Inv st)
    (hd : st.done = false) :
    match scan fuel p st.readBuf.bytes st.reads with
    | .timeout => loop grow fuel p st = .timeout
    | .panic => False
    | .ret (acc, k) =>
      ∃ st1, loop grow fuel p st = .ret st1 ∧ Inv st1 ∧ st1.readBuf.bytes = acc ∧
        st1.reads = k := by
  induction fuel generalizing p st with
  | zero => simp [scan, loop, hd]
  | succ f ih =>
    obtain ⟨st1, hb, hinv1, hr, hbytes, hdone⟩ := body_spec grow p.head st h hd
    have hlen : st.readBuf.bytes.length = st.charIdx := by
      rw [bytes_length _ h.len_le, h.len_eq]
    have hloop : loop grow (f + 1) p st = loop grow f p.tail st1 := by
      simp [loop, hd, hb]
    rw [hloop]
    simp only [scan, hlen]
    by_cases hn : 0 < p.head.n
    · by_cases hten : p.head.data = 10
      · simp only [hn, hten, if_true]
        have hd1 : st1.done = true := by rw [hdone]; simp [hn, hten]
        refine ⟨st1, loop_done grow f _ st1 hd1, hinv1, ?_, hr⟩
        rw [hbytes]; simp [hten]
      · by_cases hfull : st.charIdx + 1 = ReadBufSize
        · simp only [hn, hten, hfull, if_true, if_false]
          have hd1 : st1.done = true := by rw [hdone]; simp [hn, hfull]
          refine ⟨st1, loop_done grow f _ st1 hd1, hinv1, ?_, hr⟩
          rw [hbytes]; simp [hn, hten]
        · by_cases he : p.head.err.isSome = true
          · simp only [hn, hten, hfull, he, if_true, if_false]
            have hd1 : st1.done = true := by rw [hdone]; simp [he]
            refine ⟨st1, loop_done grow f _ st1 hd1, hinv1, ?_, hr⟩
            rw [hbytes]; simp [hn, hten]
          · simp only [hn, hten, hfull, he, if_true, if_false]
            have hd1 : st1.done = false := by rw [hdone]; simp [hn, hten, hfull, he]
            have := ih p.tail st1 hinv1 hd1
            rw [hbytes, hr] at this
            simpa [hn, hten] using this
    · by_cases he : p.head.err.isSome = true
      · simp only [hn, he, if_true, if_false]
        have hd1 : st1.done = true := by rw [hdone]; simp [he]
        refine ⟨st1, loop_done grow f _ st1 hd1, hinv1, ?_, hr⟩
        rw [hbytes]; simp [hn]
      · simp only [hn, he, if_false]
        have hd1 : st1.done = false := by rw [hdone]; simp [hn, he]
        have := ih p.tail st1 hinv1 hd1
        rw [hbytes, hr] at this
        simpa [hn] using this

/-- The call as a whole computes `scan` from the empty frame, whatever the
buffer passed in: it never panics, and count, text and number of reads are
those of `scan`. -/
theorem exec_scan (grow : Nat → Nat) (fuel : Nat) (p : Port) (readBuf : Slice) :
    (CheckSerialInput.exec grow fuel p readBuf).map (fun r => (r.count, r.text, r.reads)) =
      (scan fuel p [] 0).map (fun x => (x.1.length, x.1, x.2)) := by
  obtain ⟨st0, hst0⟩ : ∃ x : State, x =
      { readBuf := { arr := readBuf.arr, len := 0 }, buf := make 1, charIdx := 0, done := false
        reads := 0, callerArr := readBuf.arr, shared := true } := ⟨_, rfl⟩
  have hinv : Inv st0 := by
    rw [hst0]
    exact ⟨rfl, Nat.zero_le _, rfl, rfl, fun _ => by simp [ReadBufSize], by simp [ReadBufSize]⟩
  have hd : st0.done = false := by rw [hst0]
  have hb : st0.readBuf.bytes = [] := by rw [hst0]; simp [Slice.bytes]
  have hr : st0.reads = 0 := by rw [hst0]
  have hexec : CheckSerialInput.exec grow fuel p readBuf =
      (match loop grow fuel p st0 with
        | .timeout => .timeout
        | .panic => .panic
        | .ret st =>
          match st.readBuf.upTo st.charIdx with
          | none => .panic
          | some s =>
            .ret { count := st.charIdx, text := s.bytes, reads := st.reads,
                   callerArr := st.callerArr }) := by
    rw [hst0]; simp [CheckSerialInput.exec, Slice.upTo]
  have hls := loop_scan grow fuel p st0 hinv hd
  rw [hb, hr] at hls
  rw [hexec]
  cases hsc : scan fuel p [] 0 with
  | timeout => rw [hsc] at hls; simp only at hls; rw [hls]; rfl
  | panic => rw [hsc] at hls; exact hls.elim
  | ret x =>
    obtain ⟨acc, k⟩ := x
    rw [hsc] at hls
    obtain ⟨st1, hl1, hinv1, hb1, hr1⟩ := hls
    rw [hl1]
    have hup : st1.readBuf.upTo st1.charIdx = some st1.readBuf := by
      have h1 := hinv1.len_eq
      have h2 := hinv1.len_le
      simp only [Slice.upTo]
      rw [← h1, if_pos h2]
    have hlen : acc.length = st1.charIdx := by
      rw [← hb1, bytes_length _ hinv1.len_le, hinv1.len_eq]
    simp only [hup, Outcome.map, hb1, hr1, hlen]

/-- The returned pair is that of `scan`. -/
theorem CheckSerialInput_scan (grow : Nat → Nat) (fuel : Nat) (p : Port) (readBuf : Slice) :
    CheckSerialInput grow fuel p readBuf = (scan fuel p [] 0).map (fun x => (x.1.length, x.1)) := by
  have h := exec_scan grow fuel p readBuf
  unfold CheckSerialInput
  cases he : CheckSerialInput.exec grow fuel p readBuf with
  | timeout =>
    rw [he] at h
    cases hs : scan fuel p [] 0 <;> rw [hs] at h <;> simp [Outcome.map] at h ⊢
  | panic =>
    rw [he] at h
    cases hs : scan fuel p [] 0 <;> rw [hs] at h <;> simp [Outcome.map] at h ⊢
  | ret r =>
    rw [he] at h
    cases hs : scan fuel p [] 0 with
    | timeout => rw [hs] at h; simp [Outcome.map] at h
    | panic => rw [hs] at h; simp [Outcome.map] at h
    | ret x =>
      rw [hs] at h
      simp only [Outcome.map, Outcome.ret.injEq, Prod.mk.injEq] at h ⊢
      exact ⟨h.1, h.2.1⟩

/-- More fuel does not change a result already reached. -/
theorem scan_fuel (fuel m : Nat) (p : Port) (acc : List Byte) (k : Nat) (x : List Byte × Nat)
    (h : scan fuel p acc k = .ret x) : scan (fuel + m) p acc k = .ret x := by
  induction fuel generalizing p acc k with
  | zero => simp [scan] at h
  | succ f ih =>
    rw [Nat.add_right_comm]
    simp only [scan] at h ⊢
    split
    · rename_i h1
      rw [if_pos h1] at h
      split
      · rename_i h2; rw [if_pos h2] at h; exact h
      · rename_i h2
        rw [if_neg h2] at h
        split
        · rename_i h3; rw [if_pos h3] at h; exact h
        · rename_i h3
          rw [if_neg h3] at h
          split
          · rename_i h4; rw [if_pos h4] at h; exact h
          · rename_i h4; rw [if_neg h4] at h; exact ih _ _ _ h
    · rename_i h1
      rw [if_neg h1] at h
      split
      · rename_i h2; rw [if_pos h2] at h; exact h
      · rename_i h2; rw [if_neg h2] at h; exact ih _ _ _ h

/-- The read counter is carried along: starting at `k` instead of `0` adds `k`
to the count and changes nothing else. -/
theorem scan_reads (fuel : Nat) (p : Port) (acc : List Byte) (k : Nat) :
    scan fuel p acc k = (scan fuel p acc 0).map (fun x => (x.1, x.2 + k)) := by
  induction fuel generalizing p acc k with
  | zero => simp [scan, Outcome.map]
  | succ f ih =>
    simp only [scan]
    split
    · split
      · simp [Outcome.map, Nat.add_comm]
      · split
        · simp [Outcome.map, Nat.add_comm]
        · split
          · simp [Outcome.map, Nat.add_comm]
          · rw [ih _ _ (k + 1), ih _ _ (0 + 1)]
            cases scan f p.tail (acc ++ [p.head.data]) 0 <;> simp [Outcome.map]; omega
    · split
      · simp [Outcome.map, Nat.add_comm]
      · rw [ih _ _ (k + 1), ih _ _ (0 + 1)]
        cases scan f p.tail acc 0 <;> simp [Outcome.map]; omega

/-- Successful reads of bytes other than the terminator, short of the cap,
are accumulated one by one. -/
theorem scan_ok (S : List Byte) (hS : ∀ b ∈ S, b ≠ 10) (fuel : Nat) (p : Port)
    (acc : List Byte) (k : Nat) (hlen : acc.length + S.length < ReadBufSize) :
    scan (S.length + fuel) (Port.feed (S.map ok) p) acc k =
      scan fuel p (acc ++ S) (k + S.length) := by
  induction S generalizing acc k with
  | nil => simp [Port.feed]
  | cons b bs ih =>
    have hb : b ≠ 10 := hS b (List.mem_cons_self _ _)
    have hbs : ∀ c ∈ bs, c ≠ 10 := fun c hc => hS c (List.mem_cons_of_mem _ hc)
    simp only [List.length_cons] at hlen
    have hne : ¬ (acc.length + 1 = ReadBufSize) := by omega
    have hf : (b :: bs).length + fuel = (bs.length + fuel) + 1 := by
      simp only [List.length_cons]; omega
    rw [hf]
    simp only [List.map_cons, scan, Port.head_feed_cons, Port.tail_feed_cons]
    have h1 : 0 < (ok b).n := Nat.one_pos
    have h2 : (ok b).data = b := rfl
    have h3 : (ok b).err.isSome = false := rfl
    simp only [h1, h2, h3, hb, hne, if_true, if_false, Bool.false_eq_true]
    rw [ih hbs (acc ++ [b]) (k + 1) (by simp only [List.length_append, List.length_singleton]; omega)]
    simp only [List.append_assoc, List.singleton_append, List.length_cons]
    congr 1
    omega

/-- C1: for every byte sequence `S` without the byte 10 and shorter than 1024,
every initial buffer, and every port that delivers the bytes of `S` and then
a byte 10 by successful one-byte reads (whatever it does afterwards),
`CheckSerialInput` returns `(len(S), S)` once the fuel covers the
`len(S) + 1` reads; in particular a port that starts with the byte 10 gives
`(0, "")`. -/
theorem C1_terminated_frame (grow : Nat → Nat) (S : List Byte) (hS : ∀ b ∈ S, b ≠ 10)
    (hlen : S.length < 1024) (readBuf : Slice) (rest : Port) (fuel : Nat)
    (hfuel : S.length < fuel) :
    CheckSerialInput grow fuel (Port.feed (S.map ok ++ [ok 10]) rest) readBuf
        = .ret (S.length, S) ∧
      CheckSerialInput grow fuel (Port.feed [ok 10] rest) readBuf = .ret (0, []) := by
  obtain ⟨m, hm⟩ : ∃ m, fuel = S.length + (m + 1) := ⟨fuel - S.length - 1, by omega⟩
  constructor
  · rw [CheckSerialInput_scan, hm, Port.feed_append,
      scan_ok S hS (m + 1) _ [] 0 (by simpa [ReadBufSize] using hlen)]
    simp [scan, Port.head_feed_cons, ok, Outcome.map]
  · obtain ⟨j, hj⟩ : ∃ j, fuel = j + 1 := ⟨fuel - 1, by omega⟩
    rw [CheckSerialInput_scan, hj]
    simp [scan, Port.head_feed_cons, ok, Outcome.map]

/-- Witness of C1 with the frame `AB`, a buffer holding stale bytes and a port
that is idle after the terminator. -/
theorem C1_terminated_frame_witness :
    CheckSerialInput (fun c => 2 * c) 3 (Port.feed ([65, 66].map ok ++ [ok 10]) (fun _ => idle))
        { arr := [7, 8, 9], len := 3 } = .ret (2, [65, 66]) ∧
      CheckSerialInput (fun c => 2 * c) 3 (Port.feed [ok 10] (fun _ => idle))
        { arr := [7, 8, 9], len := 3 } = .ret (0, []) :=
  C1_terminated_frame (fun c => 2 * c) [65, 66] (by simp) (by simp)
    { arr := [7, 8, 9], len := 3 } (fun _ => idle) 3 (by decide)

/-- C2: for every port whose first 1024 reads are successful one-byte reads of
bytes other than 10, `CheckSerialInput` returns exactly `(1024, those 1024
bytes)` once the fuel covers 1024 reads, and the call has then made exactly
1024 reads: none after the one that delivered the 1024th byte. -/
theorem C2_truncated_at_cap (grow : Nat → Nat) (pre : List Byte) (hpre : ∀ b ∈ pre, b ≠ 10)
    (hlen : pre.length = 1024) (readBuf : Slice) (rest : Port) (fuel : Nat)
    (hfuel : 1024 ≤ fuel) :
    CheckSerialInput grow fuel (Port.feed (pre.map ok) rest) readBuf = .ret (1024, pre) ∧
      (CheckSerialInput.exec grow fuel (Port.feed (pre.map ok) rest) readBuf).map
        (fun r => r.reads) = .ret 1024 := by
  have hne : pre ≠ [] := by intro h; rw [h] at hlen; simp at hlen
  obtain ⟨ini, lst, hpl⟩ : ∃ ini lst, pre = ini ++ [lst] :=
    ⟨pre.dropLast, pre.getLast hne, (List.dropLast_append_getLast hne).symm⟩
  have hil : ini.length = 1023 := by
    rw [hpl] at hlen; simp only [List.length_append, List.length_singleton] at hlen; omega
  have hini : ∀ b ∈ ini, b ≠ 10 := fun b hb => hpre b (by rw [hpl]; simp [hb])
  have hlst : lst ≠ 10 := hpre lst (by rw [hpl]; simp)
  obtain ⟨m, hm⟩ : ∃ m, fuel = ini.length + (m + 1) := ⟨fuel - 1024, by omega⟩
  have hscan : scan fuel (Port.feed (pre.map ok) rest) [] 0 = .ret (pre, 1024) := by
    rw [hpl, List.map_append, Port.feed_append, hm,
      scan_ok ini hini (m + 1) _ [] 0 (by simp [ReadBufSize, hil])]
    simp [scan, Port.head_feed_cons, ok, hlst, hil, ReadBufSize]
  constructor
  · rw [CheckSerialInput_scan, hscan]
    simp [Outcome.map, hlen]
  · have h := exec_scan grow fuel (Port.feed (pre.map ok) rest) readBuf
    rw [hscan] at h
    cases he : CheckSerialInput.exec grow fuel (Port.feed (pre.map ok) rest) readBuf with
    | timeout => rw [he] at h; simp [Outcome.map] at h
    | panic => rw [he] at h; simp [Outcome.map] at h
    | ret r =>
      rw [he] at h
      simp only [Outcome.map, Outcome.ret.injEq, Prod.mk.injEq] at h ⊢
      exact h.2.2

/-- Witness of C2: a port that delivers the byte 65 for ever, as 1024 reads
followed by the same again. -/
theorem C2_truncated_at_cap_witness :
    CheckSerialInput (fun c => 2 * c) 1024
        (Port.feed ((List.replicate 1024 (65 : Byte)).map ok) (fun _ => ok 65))
        { arr := [], len := 0 } = .ret (1024, List.replicate 1024 65) ∧
      (CheckSerialInput.exec (fun c => 2 * c) 1024
        (Port.feed ((List.replicate 1024 (65 : Byte)).map ok) (fun _ => ok 65))
        { arr := [], len := 0 }).map (fun r => r.reads) = .ret 1024 :=
  C2_truncated_at_cap (fun c => 2 * c) (List.replicate 1024 65)
    (fun b hb => by rw [List.eq_of_mem_replicate hb]; decide) (List.length_replicate _ _)
    { arr := [], len := 0 } (fun _ => ok 65) 1024 (Nat.le_refl _)

/-- C3: for every `k < 1024` and every port that delivers `k` bytes other than
10 by successful one-byte reads and then a read of zero bytes with an error,
`CheckSerialInput` returns `(k, those k bytes)` once the fuel covers the
`k + 1` reads. The error text `e` is arbitrary, "EOF" or not, and the
returned pair has no error component. -/
theorem C3_error_ends_frame (grow : Nat → Nat) (S : List Byte) (hS : ∀ b ∈ S, b ≠ 10)
    (hlen : S.length < 1024) (d : Byte) (e : String) (readBuf : Slice) (rest : Port)
    (fuel : Nat) (hfuel : S.length < fuel) :
    CheckSerialInput grow fuel
        (Port.feed (S.map ok ++ [{ n := 0, data := d, err := some e }]) rest) readBuf
      = .ret (S.length, S) := by
  obtain ⟨m, hm⟩ : ∃ m, fuel = S.length + (m + 1) := ⟨fuel - S.length - 1, by omega⟩
  rw [CheckSerialInput_scan, hm, Port.feed_append,
    scan_ok S hS (m + 1) _ [] 0 (by simpa [ReadBufSize] using hlen)]
  simp [scan, Port.head_feed_cons, Outcome.map]

/-- Witness of C3: five bytes, then end of stream. -/
theorem C3_error_ends_frame_witness :
    CheckSerialInput (fun c => 2 * c) 6
        (Port.feed ([1, 2, 3, 4, 5].map ok ++ [{ n := 0, data := 0, err := some "EOF" }])
          (fun _ => idle))
        { arr := [], len := 0 } = .ret (5, [1, 2, 3, 4, 5]) :=
  C3_error_ends_frame (fun c => 2 * c) [1, 2, 3, 4, 5] (by simp) (by simp) 0 "EOF"
    { arr := [], len := 0 } (fun _ => idle) 6 (by decide)

/-- A frame returned by `scan` stays within the cap and consists of the bytes
delivered by the reads made, terminator left out, after the bytes already
accumulated. -/
theorem scan_frame (fuel : Nat) (p : Port) (acc : List Byte) (k : Nat) (out : List Byte)
    (j : Nat) (h : scan fuel p acc k = .ret (out, j)) (hl : acc.length < ReadBufSize) :
    out.length ≤ ReadBufSize ∧ k ≤ j ∧
      out = acc ++ ((Port.take (j - k) p).filterMap ReadResult.delivered).filter
        (fun b => decide (b ≠ 10)) := by
  induction fuel generalizing p acc k with
  | zero => simp [scan] at h
  | succ f ih =>
    have one : ∀ q : Port, Port.take (k + 1 - k) q = [q.head] := by
      intro q; rw [Nat.add_sub_cancel_left]; rfl
    simp only [scan] at h
    by_cases hn : 0 < p.head.n
    · have hdel : p.head.delivered = some p.head.data := by simp [ReadResult.delivered, hn]
      rw [if_pos hn] at h
      by_cases hten : p.head.data = 10
      · rw [if_pos hten] at h
        simp only [Outcome.ret.injEq, Prod.mk.injEq] at h
        obtain ⟨h1, h2⟩ := h
        subst h1; subst h2
        refine ⟨Nat.le_of_lt hl, Nat.le_succ _, ?_⟩
        rw [one]; simp [hdel, hten]
      · rw [if_neg hten] at h
        by_cases hfull : acc.length + 1 = ReadBufSize
        · rw [if_pos hfull] at h
          simp only [Outcome.ret.injEq, Prod.mk.injEq] at h
          obtain ⟨h1, h2⟩ := h
          subst h1; subst h2
          refine ⟨by simp [hfull], Nat.le_succ _, ?_⟩
          rw [one]; simp [hdel, hten]
        · rw [if_neg hfull] at h
          by_cases he : p.head.err.isSome = true
          · rw [if_pos he] at h
            simp only [Outcome.ret.injEq, Prod.mk.injEq] at h
            obtain ⟨h1, h2⟩ := h
            subst h1; subst h2
            refine ⟨by simp only [List.length_append, List.length_singleton]; omega,
              Nat.le_succ _, ?_⟩
            rw [one]; simp [hdel, hten]
          · rw [if_neg he] at h
            obtain ⟨i1, i2, i3⟩ := ih p.tail (acc ++ [p.head.data]) (k + 1) h
              (by simp only [List.length_append, List.length_singleton]; omega)
            refine ⟨i1, by omega, ?_⟩
            have hj : j - k = (j - (k + 1)) + 1 := by omega
            rw [hj, i3]
            simp [Port.take, hdel, hten]
    · have hdel : p.head.delivered = none := by simp [ReadResult.delivered, hn]
      rw [if_neg hn] at h
      by_cases he : p.head.err.isSome = true
      · rw [if_pos he] at h
        simp only [Outcome.ret.injEq, Prod.mk.injEq] at h
        obtain ⟨h1, h2⟩ := h
        subst h1; subst h2
        refine ⟨Nat.le_of_lt hl, Nat.le_succ _, ?_⟩
        rw [one]; simp [hdel]
      · rw [if_neg he] at h
        obtain ⟨i1, i2, i3⟩ := ih p.tail acc (k + 1) h hl
        refine ⟨i1, by omega, ?_⟩
        have hj : j - k = (j - (k + 1)) + 1 := by omega
        rw [hj, i3]
        simp [Port.take, hdel]

/-- C4: whenever `CheckSerialInput` returns `(n, text)`, for any port and any
initial buffer, `n` is at most 1024, `text` has exactly `n` bytes, none of
them is 10, and `text` is the sequence of the bytes other than 10 delivered
by the reads the call made, in order. -/
theorem C4_frame_invariant (grow : Nat → Nat) (fuel : Nat) (p : Port) (readBuf : Slice)
    (n : Nat) (text : List Byte)
    (h : CheckSerialInput grow fuel p readBuf = .ret (n, text)) :
    n ≤ 1024 ∧ text.length = n ∧ (∀ b ∈ text, b ≠ 10) ∧
      ∃ res, CheckSerialInput.exec grow fuel p readBuf = .ret res ∧ res.count = n ∧
        res.text = text ∧
        text = ((Port.take res.reads p).filterMap ReadResult.delivered).filter
          (fun b => decide (b ≠ 10)) := by
  have hx := exec_scan grow fuel p readBuf
  unfold CheckSerialInput at h
  cases he : CheckSerialInput.exec grow fuel p readBuf with
  | timeout => rw [he] at h; simp [Outcome.map] at h
  | panic => rw [he] at h; simp [Outcome.map] at h
  | ret res =>
    rw [he] at h hx
    simp only [Outcome.map, Outcome.ret.injEq, Prod.mk.injEq] at h
    obtain ⟨hc, ht⟩ := h
    cases hs : scan fuel p [] 0 with
    | timeout => rw [hs] at hx; simp [Outcome.map] at hx
    | panic => rw [hs] at hx; simp [Outcome.map] at hx
    | ret x =>
      obtain ⟨out, j⟩ := x
      rw [hs] at hx
      simp only [Outcome.map, Outcome.ret.injEq, Prod.mk.injEq] at hx
      obtain ⟨x1, x2, x3⟩ := hx
      obtain ⟨f1, _, f3⟩ := scan_frame fuel p [] 0 out j hs (by simp [ReadBufSize])
      simp only [List.nil_append, Nat.sub_zero] at f3
      have hto : text = out := by rw [← ht, x2]
      have hnl : n = out.length := by rw [← hc, x1]
      refine ⟨?_, ?_, ?_, res, rfl, hc, ht, ?_⟩
      · rw [hnl]; simpa [ReadBufSize] using f1
      · rw [hto, hnl]
      · intro b hb
        rw [hto, f3] at hb
        simpa using (List.mem_filter.mp hb).2
      · rw [x3, hto]; exact f3

/-- Witness of C4: the frame `AB` read from a port that goes idle after the
terminator. -/
theorem C4_frame_invariant_witness :
    (2 : Nat) ≤ 1024 ∧ ([65, 66] : List Byte).length = 2 ∧
      (∀ b ∈ ([65, 66] : List Byte), b ≠ 10) ∧
      ∃ res, CheckSerialInput.exec (fun c => 2 * c) 5
          (Port.feed [ok 65, idle, ok 66, ok 10] (fun _ => idle))
          { arr := [1, 2, 3], len := 2 } = .ret res ∧ res.count = 2 ∧
        res.text = [65, 66] ∧
        [65, 66] = ((Port.take res.reads
          (Port.feed [ok 65, idle, ok 66, ok 10] (fun _ => idle))).filterMap
            ReadResult.delivered).filter (fun b => decide (b ≠ 10)) :=
  C4_frame_invariant (fun c => 2 * c) 5 (Port.feed [ok 65, idle, ok 66, ok 10] (fun _ => idle))
    { arr := [1, 2, 3], len := 2 } 2 [65, 66] (by decide)

/-- C5: the pair returned by `CheckSerialInput` does not depend on the buffer
argument: any two initial buffers, of any length, capacity and contents
(and under any growth rule of `append`), give the same outcome on the same
port. -/
theorem C5_buffer_independent (grow1 grow2 : Nat → Nat) (fuel : Nat) (p : Port)
    (buf1 buf2 : Slice) :
    CheckSerialInput grow1 fuel p buf1 = CheckSerialInput grow2 fuel p buf2 := by
  rw [CheckSerialInput_scan, CheckSerialInput_scan]

/-- A read of zero bytes and no error only costs one unit of fuel and one
read. -/
theorem scan_skip (r : ReadResult) (hn : r.n = 0) (he : r.err = none) (fuel : Nat)
    (l : List ReadResult) (p : Port) (acc : List Byte) (k : Nat) :
    scan (fuel + 1) (Port.feed (r :: l) p) acc k = scan fuel (Port.feed l p) acc (k + 1) := by
  simp [scan, Port.head_feed_cons, Port.tail_feed_cons, hn, he]

/-- The frame found does not depend on the value of the read counter. -/
theorem scan_counter (fuel : Nat) (p : Port) (acc : List Byte) (k k2 : Nat) (out : List Byte)
    (j : Nat) (h : scan fuel p acc k = .ret (out, j)) :
    ∃ j2, scan fuel p acc k2 = .ret (out, j2) := by
  rw [scan_reads] at h
  rw [scan_reads fuel p acc k2]
  cases hs : scan fuel p acc 0 with
  | timeout => rw [hs] at h; simp [Outcome.map] at h
  | panic => rw [hs] at h; simp [Outcome.map] at h
  | ret x =>
    rw [hs] at h
    simp only [Outcome.map, Outcome.ret.injEq, Prod.mk.injEq] at h
    exact ⟨x.2 + k2, by simp [Outcome.map, h.1]⟩

theorem IdleInserted.length_le {l m : List ReadResult} (h : IdleInserted l m) :
    l.length ≤ m.length := by
  induction h with
  | nil => exact Nat.le_refl _
  | keep r _ ih => simp only [List.length_cons]; omega
  | skip r _ _ _ ih => simp only [List.length_cons]; omega

/-- Inserting reads of zero bytes and no error leaves the frame found
unchanged, given one more unit of fuel for each inserted read. -/
theorem scan_inserted {l m : List ReadResult} (hins : IdleInserted l m) (rest : Port)
    (fuel : Nat) (acc : List Byte) (k k2 : Nat) (out : List Byte) (j : Nat)
    (h : scan fuel (Port.feed l rest) acc k = .ret (out, j)) :
    ∃ j2, scan (fuel + (m.length - l.length)) (Port.feed m rest) acc k2 = .ret (out, j2) := by
  induction hins generalizing fuel acc k k2 with
  | nil => simpa using scan_counter fuel _ acc k k2 out j h
  | @keep r l m hlm ih =>
    have hd : (r :: m).length - (r :: l).length = m.length - l.length := by
      simp only [List.length_cons]; omega
    rw [hd]
    cases fuel with
    | zero => simp [scan] at h
    | succ f =>
      rw [Nat.add_right_comm]
      simp only [scan, Port.head_feed_cons, Port.tail_feed_cons] at h ⊢
      by_cases hn : 0 < r.n
      · rw [if_pos hn] at h ⊢
        by_cases hten : r.data = 10
        · rw [if_pos hten] at h ⊢
          simp only [Outcome.ret.injEq, Prod.mk.injEq] at h
          exact ⟨k2 + 1, by rw [h.1]⟩
        · rw [if_neg hten] at h ⊢
          by_cases hfull : acc.length + 1 = ReadBufSize
          · rw [if_pos hfull] at h ⊢
            simp only [Outcome.ret.injEq, Prod.mk.injEq] at h
            exact ⟨k2 + 1, by rw [h.1]⟩
          · rw [if_neg hfull] at h ⊢
            by_cases he : r.err.isSome = true
            · rw [if_pos he] at h ⊢
              simp only [Outcome.ret.injEq, Prod.mk.injEq] at h
              exact ⟨k2 + 1, by rw [h.1]⟩
            · rw [if_neg he] at h ⊢
              exact ih f _ (k + 1) (k2 + 1) h
      · rw [if_neg hn] at h ⊢
        by_cases he : r.err.isSome = true
        · rw [if_pos he] at h ⊢
          simp only [Outcome.ret.injEq, Prod.mk.injEq] at h
          exact ⟨k2 + 1, by rw [h.1]⟩
        · rw [if_neg he] at h ⊢
          exact ih f _ (k + 1) (k2 + 1) h
  | @skip r l m hn he hlm ih =>
    have hle := hlm.length_le
    have hd : fuel + ((r :: m).length - l.length) = (fuel + (m.length - l.length)) + 1 := by
      simp only [List.length_cons]; omega
    rw [hd, scan_skip r hn he]
    exact ih fuel acc k (k2 + 1) h

/-- C6: reads of zero bytes and no error are skipped without effect. Let the
port `T` start with the results `l` and go on as `rest` (every port does,
with `l` empty), and let `CheckSerialInput` return `r` on `T` within `fuel`
reads. Then (1) for every `N`, on `N` reads of zero bytes and no error
followed by `T` it returns the same `r` within `fuel + N` reads; and (2) for
every `m` that is `l` with finitely many such reads inserted, it returns the
same `r` on the port that starts with `m` and goes on as `rest`, within as
many more reads as were inserted. -/
theorem C6_idle_reads_skipped (grow : Nat → Nat) (fuel N : Nat) (l m : List ReadResult)
    (rest : Port) (readBuf : Slice) (r : Nat × List Byte) (hins : IdleInserted l m)
    (h : CheckSerialInput grow fuel (Port.feed l rest) readBuf = .ret r) :
    CheckSerialInput grow (fuel + N) (Port.feed (List.replicate N idle) (Port.feed l rest))
        readBuf = .ret r ∧
      CheckSerialInput grow (fuel + (m.length - l.length)) (Port.feed m rest) readBuf
        = .ret r := by
  rw [CheckSerialInput_scan] at h
  cases hs : scan fuel (Port.feed l rest) [] 0 with
  | timeout => rw [hs] at h; simp [Outcome.map] at h
  | panic => rw [hs] at h; simp [Outcome.map] at h
  | ret x =>
    obtain ⟨out, j⟩ := x
    rw [hs] at h
    simp only [Outcome.map, Outcome.ret.injEq] at h
    constructor
    · have hrep : ∀ n : Nat, IdleInserted [] (List.replicate n idle) := by
        intro n
        induction n with
        | zero => exact IdleInserted.nil
        | succ n ih => exact IdleInserted.skip idle rfl rfl ih
      obtain ⟨j2, hj2⟩ :=
        scan_inserted (hrep N) (Port.feed l rest) fuel [] 0 0 out j
          (by rw [Port.feed_nil]; exact hs)
      simp only [List.length_replicate, List.length_nil, Nat.sub_zero] at hj2
      rw [CheckSerialInput_scan, hj2, ← h]
      rfl
    · obtain ⟨j2, hj2⟩ := scan_inserted hins rest fuel [] 0 0 out j hs
      rw [CheckSerialInput_scan, hj2, ← h]
      rfl

/-- Witness of C6: the frame `AB`, then the same port with four idle reads in
front and with idle reads inserted before and between the bytes. -/
theorem C6_idle_reads_skipped_witness :
    CheckSerialInput (fun c => 2 * c) (3 + 4)
        (Port.feed (List.replicate 4 idle) (Port.feed [ok 65, ok 66, ok 10] (fun _ => idle)))
        { arr := [], len := 0 } = .ret (2, [65, 66]) ∧
      CheckSerialInput (fun c => 2 * c)
        (3 + ([idle, ok 65, idle, idle, ok 66, ok 10].length - [ok 65, ok 66, ok 10].length))
        (Port.feed [idle, ok 65, idle, idle, ok 66, ok 10] (fun _ => idle))
        { arr := [], len := 0 } = .ret (2, [65, 66]) :=
  C6_idle_reads_skipped (fun c => 2 * c) 3 4 [ok 65, ok 66, ok 10]
    [idle, ok 65, idle, idle, ok 66, ok 10] (fun _ => idle) { arr := [], len := 0 } (2, [65, 66])
    (.skip idle rfl rfl (.keep (ok 65) (.skip idle rfl rfl (.skip idle rfl rfl
      (.keep (ok 66) (.keep (ok 10) .nil))))))
    (by decide)

/-- A port that only ever gives zero bytes and no error keeps the loop
running: whatever the fuel, the call has not returned. -/
theorem idle_forever (grow : Nat → Nat) (fuel : Nat) (readBuf : Slice) :
    CheckSerialInput grow fuel (fun _ => idle) readBuf = .timeout := by
  have h : ∀ (f : Nat) (acc : List Byte) (k : Nat),
      scan f (fun _ => idle) acc k = .timeout := by
    intro f
    induction f with
    | zero => intro acc k; rfl
    | succ n ih =>
      intro acc k
      have ht : Port.tail (fun _ => idle) = (fun _ => idle) := rfl
      have hn : idle.n = 0 := rfl
      have he : idle.err = none := rfl
      simp [scan, Port.head, hn, he, ht, ih]
  rw [CheckSerialInput_scan, h]
  rfl

theorem scan_ne_panic (fuel : Nat) (p : Port) (acc : List Byte) (k : Nat) :
    scan fuel p acc k ≠ .panic := by
  induction fuel generalizing p acc k with
  | zero => simp [scan]
  | succ f ih =>
    simp only [scan]
    split
    · split
      · simp
      · split
        · simp
        · split
          · simp
          · exact ih _ _ _
    · split
      · simp
      · exact ih _ _ _

/-- C11: for every port, every initial buffer (the nil slice, an empty one, or
one of any length and capacity) and every amount of fuel, `CheckSerialInput`
does not panic: `readBuf[:0]` is in bounds, and no pass of the loop and no
`readBuf[:charIdx]` at the end goes out of bounds, since each would make the
run end in `panic`. When the very first read gives zero bytes and an error,
the result is the empty frame `(0, "")`. -/
theorem C11_never_panics (grow : Nat → Nat) (fuel : Nat) (p : Port) (readBuf : Slice)
    (d : Byte) (e : String) :
    readBuf.upTo 0 ≠ none ∧
    CheckSerialInput.exec grow fuel p readBuf ≠ .panic ∧
    CheckSerialInput grow fuel p readBuf ≠ .panic ∧
    CheckSerialInput grow (fuel + 1) (Port.feed [{ n := 0, data := d, err := some e }] p) readBuf
      = .ret (0, []) := by
  refine ⟨by simp [Slice.upTo], ?_, ?_, ?_⟩
  · intro h
    have hx := exec_scan grow fuel p readBuf
    rw [h] at hx
    cases hs : scan fuel p [] 0 with
    | timeout => rw [hs] at hx; simp [Outcome.map] at hx
    | panic => exact scan_ne_panic fuel p [] 0 hs
    | ret x => rw [hs] at hx; simp [Outcome.map] at hx
  · rw [CheckSerialInput_scan]
    cases hs : scan fuel p [] 0 with
    | timeout => simp [Outcome.map]
    | panic => exact absurd hs (scan_ne_panic fuel p [] 0)
    | ret x => simp [Outcome.map]
  · rw [CheckSerialInput_scan]
    simp [scan, Port.head_feed_cons, Outcome.map]

/-- A returned run is exactly a returned `scan`, with the count the length of
the text. -/
theorem exec_ret (grow : Nat → Nat) (fuel : Nat) (p : Port) (readBuf : Slice) (res : Result)
    (h : CheckSerialInput.exec grow fuel p readBuf = .ret res) :
    scan fuel p [] 0 = .ret (res.text, res.reads) ∧ res.count = res.text.length := by
  have hx := exec_scan grow fuel p readBuf
  rw [h] at hx
  cases hs : scan fuel p [] 0 with
  | timeout => rw [hs] at hx; simp [Outcome.map] at hx
  | panic => rw [hs] at hx; simp [Outcome.map] at hx
  | ret x =>
    obtain ⟨out, j⟩ := x
    rw [hs] at hx
    simp only [Outcome.map, Outcome.ret.injEq, Prod.mk.injEq] at hx
    obtain ⟨x1, x2, x3⟩ := hx
    refine ⟨?_, ?_⟩
    · rw [x2, x3]
    · rw [x1, x2]

/-- The last read of a returned `scan`: at least one read was made; a last
read that delivered the byte 10 leaves the frame below the cap; a frame at
the cap was completed by a last read that delivered another byte; and the
last read delivered the byte 10, or filled the frame, or reported an
error. -/
theorem scan_stop (fuel : Nat) (p : Port) (acc : List Byte) (k : Nat) (out : List Byte)
    (j : Nat) (h : scan fuel p acc k = .ret (out, j)) (hl : acc.length < ReadBufSize) :
    k < j ∧
    (0 < (p (j - k - 1)).n → (p (j - k - 1)).data = 10 → out.length < ReadBufSize) ∧
    (out.length = ReadBufSize → 0 < (p (j - k - 1)).n ∧ (p (j - k - 1)).data ≠ 10) ∧
    ((0 < (p (j - k - 1)).n ∧ (p (j - k - 1)).data = 10) ∨ out.length = ReadBufSize ∨
      (p (j - k - 1)).err.isSome = true) := by
  induction fuel generalizing p acc k with
  | zero => simp [scan] at h
  | succ f ih =>
    have here : k + 1 - k - 1 = 0 := by omega
    have hhead : p.head = p 0 := rfl
    simp only [scan] at h
    by_cases hn : 0 < p.head.n
    · rw [if_pos hn] at h
      by_cases hten : p.head.data = 10
      · rw [if_pos hten] at h
        simp only [Outcome.ret.injEq, Prod.mk.injEq] at h
        obtain ⟨h1, h2⟩ := h
        subst h1; subst h2
        rw [here, ← hhead]
        exact ⟨Nat.lt_succ_self _, fun _ _ => hl, fun e => absurd e (Nat.ne_of_lt hl),
          Or.inl ⟨hn, hten⟩⟩
      · rw [if_neg hten] at h
        by_cases hfull : acc.length + 1 = ReadBufSize
        · rw [if_pos hfull] at h
          simp only [Outcome.ret.injEq, Prod.mk.injEq] at h
          obtain ⟨h1, h2⟩ := h
          subst h1; subst h2
          rw [here, ← hhead]
          have hlen : (acc ++ [p.head.data]).length = ReadBufSize := by
            simp only [List.length_append, List.length_singleton]; exact hfull
          exact ⟨Nat.lt_succ_self _, fun _ e => absurd e hten, fun _ => ⟨hn, hten⟩,
            Or.inr (Or.inl hlen)⟩
        · rw [if_neg hfull] at h
          have hlen : (acc ++ [p.head.data]).length = acc.length + 1 := by
            simp only [List.length_append, List.length_singleton]
          by_cases he : p.head.err.isSome = true
          · rw [if_pos he] at h
            simp only [Outcome.ret.injEq, Prod.mk.injEq] at h
            obtain ⟨h1, h2⟩ := h
            subst h1; subst h2
            rw [here, ← hhead]
            exact ⟨Nat.lt_succ_self _, fun _ e => absurd e hten,
              fun e => absurd (hlen.symm.trans e) hfull, Or.inr (Or.inr he)⟩
          · rw [if_neg he] at h
            obtain ⟨i1, i2, i3, i4⟩ := ih p.tail (acc ++ [p.head.data]) (k + 1) h
              (by rw [hlen]; omega)
            have hidx : p.tail (j - (k + 1) - 1) = p (j - k - 1) := by
              show p (j - (k + 1) - 1 + 1) = p (j - k - 1)
              congr 1; omega
            rw [hidx] at i2 i3 i4
            exact ⟨by omega, i2, i3, i4⟩
    · rw [if_neg hn] at h
      by_cases he : p.head.err.isSome = true
      · rw [if_pos he] at h
        simp only [Outcome.ret.injEq, Prod.mk.injEq] at h
        obtain ⟨h1, h2⟩ := h
        subst h1; subst h2
        rw [here, ← hhead]
        exact ⟨Nat.lt_succ_self _, fun e => absurd e hn, fun e => absurd e (Nat.ne_of_lt hl),
          Or.inr (Or.inr he)⟩
      · rw [if_neg he] at h
        obtain ⟨i1, i2, i3, i4⟩ := ih p.tail acc (k + 1) h hl
        have hidx : p.tail (j - (k + 1) - 1) = p (j - k - 1) := by
          show p (j - (k + 1) - 1 + 1) = p (j - k - 1)
          congr 1; omega
        rw [hidx] at i2 i3 i4
        exact ⟨by omega, i2, i3, i4⟩

/-- Every returned run was stopped for at least one of the three reasons, and
the count tells whether the cap was one of them. -/
theorem stopped_cases (grow : Nat → Nat) (fuel : Nat) (p : Port) (readBuf : Slice)
    (res : Result) (h : CheckSerialInput.exec grow fuel p readBuf = .ret res) :
    (StoppedBy .newline p res = true ∨ StoppedBy .cap p res = true ∨
      StoppedBy .error p res = true) ∧
    (res.count = ReadBufSize ↔ StoppedBy .cap p res = true) ∧
    (StoppedBy .newline p res = true → res.count < ReadBufSize) := by
  obtain ⟨hs, hc⟩ := exec_ret grow fuel p readBuf res h
  obtain ⟨_, s2, s3, s4⟩ := scan_stop fuel p [] 0 res.text res.reads hs (by simp [ReadBufSize])
  simp only [Nat.sub_zero] at s2 s3 s4
  rw [← hc] at s2 s3 s4
  refine ⟨?_, ?_, ?_⟩
  · rcases s4 with h1 | h1 | h1
    · exact Or.inl (by simp [StoppedBy, lastRead, h1.1, h1.2])
    · obtain ⟨a, b⟩ := s3 h1
      exact Or.inr (Or.inl (by simp [StoppedBy, lastRead, a, b, h1]))
    · exact Or.inr (Or.inr (by simp [StoppedBy, lastRead, h1]))
  · constructor
    · intro h1
      obtain ⟨a, b⟩ := s3 h1
      simp [StoppedBy, lastRead, a, b, h1]
    · intro h1
      simp only [StoppedBy, lastRead, Bool.and_eq_true, decide_eq_true_eq] at h1
      exact h1.2
  · intro h1
    simp only [StoppedBy, lastRead, Bool.and_eq_true, decide_eq_true_eq] at h1
    exact s2 h1.1 h1.2

theorem Port.feed_index (l1 l2 : List ReadResult) (r : ReadResult) (rest : Port) :
    Port.feed (l1 ++ r :: l2) rest l1.length = r := by
  induction l1 with
  | nil => rfl
  | cons a as ih => exact ih

/-- A returned `scan` gives a returned run with the same text and reads. -/
theorem exec_of_scan (grow : Nat → Nat) (fuel : Nat) (p : Port) (readBuf : Slice)
    (out : List Byte) (j : Nat) (h : scan fuel p [] 0 = .ret (out, j)) :
    ∃ res, CheckSerialInput.exec grow fuel p readBuf = .ret res ∧ res.count = out.length ∧
      res.text = out ∧ res.reads = j := by
  have hx := exec_scan grow fuel p readBuf
  rw [h] at hx
  cases he : CheckSerialInput.exec grow fuel p readBuf with
  | timeout => rw [he] at hx; simp [Outcome.map] at hx
  | panic => rw [he] at hx; simp [Outcome.map] at hx
  | ret res =>
    rw [he] at hx
    simp only [Outcome.map, Outcome.ret.injEq, Prod.mk.injEq] at hx
    exact ⟨res, rfl, hx.1, hx.2.1, hx.2.2⟩

/-- A run whose 1024th read delivers the byte that fills the frame, with or
without an error: it returns the 1024 bytes after 1024 reads. -/
theorem scan_fill (S : List Byte) (hS : ∀ b ∈ S, b ≠ 10) (hlen : S.length = 1023)
    (r : ReadResult) (hn : 0 < r.n) (hd : r.data ≠ 10) (rest : Port) :
    scan 1024 (Port.feed (S.map ok ++ [r]) rest) [] 0 = .ret (S ++ [r.data], 1024) := by
  have hf : (1024 : Nat) = S.length + 1 := by rw [hlen]
  rw [hf, Port.feed_append, scan_ok S hS 1 _ [] 0 (by simp [ReadBufSize, hlen])]
  simp [scan, Port.head_feed_cons, hn, hd, hlen, ReadBufSize]

/-- Refutation of C12 as stated: it is not the case that for each pair of the
three stop reasons two runs, one stopped for each reason, return the same
count and text. The pair newline, cap has none: a run stopped by a newline
returns a count below 1024, a run stopped at the cap returns 1024. -/
theorem C12_newline_cap_refuted : ¬ (∀ a b : Stop, a ≠ b → SameReturn a b) := by
  intro h
  obtain ⟨grow, fuel, p1, p2, b1, b2, res1, res2, e1, e2, s1, s2, hc, _⟩ :=
    h .newline .cap (by decide)
  have h1 := (stopped_cases grow fuel p1 b1 res1 e1).2.2 s1
  have h2 := (stopped_cases grow fuel p2 b2 res2 e2).2.1.mpr s2
  omega

/-- C12, amended: the returned pair does not tell a stop by newline from a stop
by a stream error, nor a stop at the cap alone from a stop at the cap by a
read that also reported an error: for the pairs newline, error and cap,
error there are two runs, one stopped for each reason, that return the same
count and text. It does tell whether the cap was reached: the count is 1024
exactly when the run stopped at the cap, so no run stopped by a newline
returns what a run stopped at the cap returns. -/
theorem C12_stop_reason_partly_hidden :
    SameReturn .newline .error ∧ SameReturn .cap .error ∧ ¬ SameReturn .newline .cap ∧
    (∀ (grow : Nat → Nat) (fuel : Nat) (p : Port) (readBuf : Slice) (res : Result),
      CheckSerialInput.exec grow fuel p readBuf = .ret res →
        (res.count = 1024 ↔ StoppedBy .cap p res = true)) := by
  refine ⟨?_, ?_, ?_, ?_⟩
  · exact ⟨id, 2, Port.feed [ok 65, ok 10] (fun _ => idle),
      Port.feed [ok 65, failed "EOF"] (fun _ => idle), ⟨[], 0⟩, ⟨[], 0⟩,
      ⟨1, [65], 2, []⟩, ⟨1, [65], 2, []⟩, by decide, by decide, by decide, by decide, rfl, rfl⟩
  · have hS : ∀ b ∈ List.replicate 1023 (65 : Byte), b ≠ 10 := by
      intro b hb; rw [List.eq_of_mem_replicate hb]; decide
    have hl : (List.replicate 1023 (65 : Byte)).length = 1023 := List.length_replicate _ _
    have hm : ((List.replicate 1023 (65 : Byte)).map ok).length = 1023 := by
      rw [List.length_map, hl]
    obtain ⟨r2, hr2⟩ : ∃ r : ReadResult, r = { n := 1, data := 65, err := some "EOF" } :=
      ⟨_, rfl⟩
    have c1 := scan_fill _ hS hl (ok 65) Nat.one_pos (by decide) (fun _ => idle)
    have c2 := scan_fill _ hS hl r2 (by rw [hr2]; exact Nat.one_pos) (by rw [hr2]; decide)
      (fun _ => idle)
    obtain ⟨res1, e1, n1, t1, k1⟩ := exec_of_scan id 1024 _ ⟨[], 0⟩ _ _ c1
    obtain ⟨res2, e2, n2, t2, k2⟩ := exec_of_scan id 1024 _ ⟨[], 0⟩ _ _ c2
    have len1 : (List.replicate 1023 (65 : Byte) ++ [(ok 65).data]).length = 1024 := by
      rw [List.length_append, hl]; rfl
    have len2 : (List.replicate 1023 (65 : Byte) ++ [r2.data]).length = 1024 := by
      rw [List.length_append, hl]; rfl
    have i1 := Port.feed_index ((List.replicate 1023 (65 : Byte)).map ok) [] (ok 65)
      (fun _ => idle)
    have i2 := Port.feed_index ((List.replicate 1023 (65 : Byte)).map ok) [] r2 (fun _ => idle)
    rw [hm] at i1 i2
    refine ⟨id, 1024, _, _, ⟨[], 0⟩, ⟨[], 0⟩, res1, res2, e1, e2, ?_, ?_, ?_, ?_⟩
    · simp only [StoppedBy, lastRead, k1, Nat.add_one_sub_one, i1]
      rw [n1, len1]
      decide
    · simp only [StoppedBy, lastRead, k2, Nat.add_one_sub_one, i2]
      rw [hr2]
      rfl
    · rw [n1, n2, len1, len2]
    · rw [t1, t2, hr2]
      rfl
  · rintro ⟨grow, fuel, p1, p2, b1, b2, res1, res2, e1, e2, s1, s2, hc, _⟩
    have h1 := (stopped_cases grow fuel p1 b1 res1 e1).2.2 s1
    have h2 := (stopped_cases grow fuel p2 b2 res2 e2).2.1.mpr s2
    omega
  · intro grow fuel p readBuf res h
    exact (stopped_cases grow fuel p readBuf res h).2.1

theorem set_append_length (a t : List Byte) (x b : Byte) :
    (a ++ x :: t).set a.length b = a ++ b :: t := by
  induction a with
  | nil => rfl
  | cons y ys ih => simp only [List.cons_append, List.length_cons, List.set_cons_succ, ih]

theorem store_fields (grow : Nat → Nat) (b : Byte) (st : State) :
    (store grow b st).readBuf = append grow st.readBuf b ∧
    (store grow b st).callerArr =
      (if st.shared && appendInPlace st.readBuf then (append grow st.readBuf b).arr
       else st.callerArr) ∧
    (store grow b st).shared = (st.shared && appendInPlace st.readBuf) := by
  unfold store
  simp only
  split <;> exact ⟨rfl, rfl, rfl⟩

/-- `Mem` only looks at `readBuf` and the two ghost fields. -/
theorem Mem.congr (arr0 : List Byte) (st st2 : State) (h : Mem arr0 st)
    (h1 : st2.readBuf = st.readBuf) (h2 : st2.callerArr = st.callerArr)
    (h3 : st2.shared = st.shared) : Mem arr0 st2 := by
  constructor
  · rw [h1, h2]; exact h.caller
  · rw [h1, h2, h3]; exact h.same
  · rw [h1, h3]; exact h.grown

/-- While `readBuf` shares the caller's array its capacity is that of the
array. -/
theorem Mem.cap_eq (arr0 : List Byte) (st : State) (h : Mem arr0 st) (hi : Inv st)
    (hs : st.shared = true) : st.readBuf.cap = arr0.length := by
  have h1 := h.same hs
  have h2 := h.caller
  have hb := bytes_length _ hi.len_le
  unfold Slice.cap
  rw [h1, h2]
  simp only [List.length_append, List.length_take, List.length_drop, hb]
  omega

/-- Appending a byte keeps the invariant on the caller's array. -/
theorem store_mem (grow : Nat → Nat) (b : Byte) (st : State) (arr0 : List Byte)
    (hi : Inv st) (hm : Mem arr0 st) : Mem arr0 (store grow b st) := by
  obtain ⟨f1, f2, f3⟩ := store_fields grow b st
  have hb := bytes_length _ hi.len_le
  have hbytes := append_bytes grow st.readBuf b hi.len_le
  have hlen := append_len grow st.readBuf b
  by_cases hin : st.shared = true ∧ st.readBuf.len < st.readBuf.cap
  · obtain ⟨hs, hlt⟩ := hin
    have hcap := Mem.cap_eq arr0 st hm hi hs
    rw [hcap] at hlt
    have hip : appendInPlace st.readBuf = true := by
      simp only [appendInPlace, decide_eq_true_eq, hcap]; exact hlt
    have harr : (append grow st.readBuf b).arr = st.readBuf.arr.set st.readBuf.len b := by
      unfold append
      rw [if_pos (by rw [hcap]; exact hlt)]
    have hold : st.readBuf.arr =
        st.readBuf.bytes ++ arr0[st.readBuf.len] :: arr0.drop (st.readBuf.len + 1) := by
      rw [hm.same hs, hm.caller, List.take_of_length_le (by rw [hb]; omega),
        Nat.min_eq_left (Nat.le_of_lt hlt), List.drop_eq_getElem_cons hlt]
    constructor
    · rw [f2, hs, hip, f1, hbytes, hlen]
      simp only [Bool.and_self, if_true]
      rw [harr, hold]
      have := set_append_length st.readBuf.bytes (arr0.drop (st.readBuf.len + 1))
        arr0[st.readBuf.len] b
      rw [hb] at this
      rw [this, List.take_of_length_le
        (by simp only [List.length_append, List.length_singleton, hb]; omega),
        Nat.min_eq_left (by omega)]
      simp
    · intro _
      rw [f1, f2, hs, hip]
      simp
    · intro h
      rw [f3, hs, hip] at h
      simp at h
  · have hge : arr0.length ≤ st.readBuf.len := by
      by_cases hs : st.shared = true
      · have hcap := Mem.cap_eq arr0 st hm hi hs
        have : ¬ st.readBuf.len < st.readBuf.cap := fun h => hin ⟨hs, h⟩
        omega
      · exact hm.grown (by simpa using hs)
    have hoff : (st.shared && appendInPlace st.readBuf) = false := by
      by_cases hs : st.shared = true
      · have : ¬ st.readBuf.len < st.readBuf.cap := fun h => hin ⟨hs, h⟩
        simp [appendInPlace, this]
      · simp [hs]
    constructor
    · rw [f2, hoff, f1, hbytes, hlen, hm.caller]
      simp only [Bool.false_eq_true, if_false]
      rw [List.take_append_of_le_length (by rw [hb]; exact hge),
        Nat.min_eq_right hge, Nat.min_eq_right (by omega)]
    · intro h
      rw [f3, hoff] at h
      simp at h
    · intro _
      rw [f1, hlen]
      omega

/-- One pass of the loop body keeps the invariant on the caller's array. -/
theorem body_mem (grow : Nat → Nat) (r : ReadResult) (st st1 : State) (arr0 : List Byte)
    (hi : Inv st) (hm : Mem arr0 st) (hb : body grow r st = some st1) : Mem arr0 st1 := by
  by_cases hn : 0 < r.n
  · obtain ⟨st0, hst0⟩ : ∃ x : State, x =
        { st with buf := { st.buf with arr := st.buf.arr.set 0 r.data }, reads := st.reads + 1 } :=
      ⟨_, rfl⟩
    have hidx : st0.buf.index 0 = some r.data := by
      have h1 := hi.buf_len
      have h2 := hi.buf_cap
      rw [hst0]
      simp only [Slice.index, h1]
      cases harr : st.buf.arr with
      | nil => rw [harr] at h2; simp at h2
      | cons a as => simp
    have hinv0 : Inv st0 := by
      rw [hst0]
      exact ⟨hi.len_eq, hi.len_le, hi.buf_len, by simp [hi.buf_cap], hi.below, hi.atMost⟩
    have hm0 : Mem arr0 st0 :=
      Mem.congr arr0 st st0 hm (by rw [hst0]) (by rw [hst0]) (by rw [hst0])
    have hbody : body grow r st =
        (match received grow st0 with
          | none => none
          | some st2 => some (onErr r.err st2)) := by
      rw [hst0]; simp only [body, hn, if_true]
    rw [hbody] at hb
    by_cases hten : r.data = 10
    · have hrec : received grow st0 = some { st0 with done := true } := by
        unfold received; rw [hidx]; exact if_pos hten
      rw [hrec] at hb
      simp only [Option.some.injEq] at hb
      obtain ⟨q1, _, _, _, q5, q6, _⟩ := onErr_readBuf r.err { st0 with done := true }
      rw [← hb]
      exact Mem.congr arr0 st0 _ hm0 q1 q5 q6
    · have hrec : received grow st0 = some (store grow r.data st0) := by
        unfold received; rw [hidx]; exact if_neg hten
      rw [hrec] at hb
      simp only [Option.some.injEq] at hb
      obtain ⟨q1, _, _, _, q5, q6, _⟩ := onErr_readBuf r.err (store grow r.data st0)
      rw [← hb]
      exact Mem.congr arr0 _ _ (store_mem grow r.data st0 arr0 hinv0 hm0) q1 q5 q6
  · simp only [body, hn, if_false, Option.some.injEq] at hb
    obtain ⟨q1, _, _, _, q5, q6, _⟩ := onErr_readBuf r.err { st with reads := st.reads + 1 }
    rw [← hb]
    exact Mem.congr arr0 st _ hm q1 q5 q6

/-- The loop keeps both invariants up to its final state. -/
theorem loop_mem (grow : Nat → Nat) (fuel : Nat) (p : Port) (st st2 : State)
    (arr0 : List Byte) (hi : Inv st) (hm : Mem arr0 st)
    (h : loop grow fuel p st = .ret st2) : Inv st2 ∧ Mem arr0 st2 := by
  induction fuel generalizing p st with
  | zero =>
    by_cases hd : st.done = true
    · rw [loop_done grow 0 p st hd] at h
      simp only [Outcome.ret.injEq] at h
      rw [← h]; exact ⟨hi, hm⟩
    · simp [loop, hd] at h
  | succ f ih =>
    by_cases hd : st.done = true
    · rw [loop_done grow (f + 1) p st hd] at h
      simp only [Outcome.ret.injEq] at h
      rw [← h]; exact ⟨hi, hm⟩
    · have hd2 : st.done = false := by simpa using hd
      obtain ⟨st1, hb, hinv1, _, _, _⟩ := body_spec grow p.head st hi hd2
      have hm1 := body_mem grow p.head st st1 arr0 hi hm hb
      have hloop : loop grow (f + 1) p st = loop grow f p.tail st1 := by
        simp [loop, hd2, hb]
      rw [hloop] at h
      exact ih p.tail st1 hinv1 hm1 h

/-- The caller's backing array after a returned call: the text as far as it
fits the capacity, then the old contents. -/
theorem exec_callerArr (grow : Nat → Nat) (fuel : Nat) (p : Port) (readBuf : Slice)
    (res : Result) (h : CheckSerialInput.exec grow fuel p readBuf = .ret res) :
    res.callerArr =
      res.text.take readBuf.cap ++ readBuf.arr.drop (min res.count readBuf.cap) := by
  obtain ⟨st0, hst0⟩ : ∃ x : State, x =
      { readBuf := { arr := readBuf.arr, len := 0 }, buf := make 1, charIdx := 0, done := false
        reads := 0, callerArr := readBuf.arr, shared := true } := ⟨_, rfl⟩
  have hinv : Inv st0 := by
    rw [hst0]
    exact ⟨rfl, Nat.zero_le _, rfl, rfl, fun _ => by simp [ReadBufSize], by simp [ReadBufSize]⟩
  have hmem : Mem readBuf.arr st0 := by
    rw [hst0]
    exact ⟨by simp [Slice.bytes], fun _ => rfl, fun hf => by simp at hf⟩
  have hexec : CheckSerialInput.exec grow fuel p readBuf =
      (match loop grow fuel p st0 with
        | .timeout => .timeout
        | .panic => .panic
        | .ret st =>
          match st.readBuf.upTo st.charIdx with
          | none => .panic
          | some s =>
            .ret { count := st.charIdx, text := s.bytes, reads := st.reads,
                   callerArr := st.callerArr }) := by
    rw [hst0]; simp [CheckSerialInput.exec, Slice.upTo]
  rw [hexec] at h
  cases hl : loop grow fuel p st0 with
  | timeout => rw [hl] at h; simp at h
  | panic => rw [hl] at h; simp at h
  | ret st =>
    rw [hl] at h
    obtain ⟨hi2, hm2⟩ := loop_mem grow fuel p st0 st readBuf.arr hinv hmem hl
    have hup : st.readBuf.upTo st.charIdx = some st.readBuf := by
      have h1 := hi2.len_eq
      have h2 := hi2.len_le
      simp only [Slice.upTo]
      rw [← h1, if_pos h2]
    simp only [hup, Outcome.ret.injEq] at h
    rw [← h]
    simp only
    rw [← hi2.len_eq]
    exact hm2.caller

/-- Refutation of C13 as stated: a call with a buffer of length and capacity 3
holding 7, 8, 9, on a port that delivers the byte 65 and then the
terminator, returns `(1, "A")`; the caller's buffer afterwards still has
length 3 and holds 65, 8, 9: it was not cleared and does not hold exactly
the one accumulated byte. -/
theorem C13_caller_buffer_not_cleared :
    ∃ res, CheckSerialInput.exec (fun c => 2 * c) 2
        (Port.feed [ok 65, ok 10] (fun _ => idle)) { arr := [7, 8, 9], len := 3 } = .ret res ∧
      res.count = 1 ∧ res.text = [65] ∧
      (callerView { arr := [7, 8, 9], len := 3 } res).len = 3 ∧
      (callerView { arr := [7, 8, 9], len := 3 } res).bytes = [65, 8, 9] ∧
      (callerView { arr := [7, 8, 9], len := 3 } res).bytes ≠ res.text :=
  ⟨⟨1, [65], 2, [65, 8, 9]⟩, by decide, rfl, rfl, rfl, by decide, by decide⟩

/-- C13, amended: `CheckSerialInput` writes into the backing array of the
caller's buffer but leaves the caller's slice as it was: after a call that
returns `(n, text)` the caller's buffer has its initial length and capacity,
its backing array holds the first `min(n, cap)` bytes of `text` followed by
its old contents, and, when `n` is within the capacity, reslicing the
buffer to `[:n]` gives exactly `text`; for every initial length and
capacity of the buffer. -/
theorem C13_caller_array_written (grow : Nat → Nat) (fuel : Nat) (p : Port) (readBuf : Slice)
    (res : Result) (h : CheckSerialInput.exec grow fuel p readBuf = .ret res) :
    (callerView readBuf res).len = readBuf.len ∧
    (callerView readBuf res).cap = readBuf.cap ∧
    (callerView readBuf res).arr =
      res.text.take readBuf.cap ++ readBuf.arr.drop (min res.count readBuf.cap) ∧
    (res.count ≤ readBuf.cap →
      ((callerView readBuf res).upTo res.count).map Slice.bytes = some res.text) := by
  have harr := exec_callerArr grow fuel p readBuf res h
  obtain ⟨_, hc⟩ := exec_ret grow fuel p readBuf res h
  have hcap : res.callerArr.length = readBuf.arr.length := by
    rw [harr]
    simp only [List.length_append, List.length_take, List.length_drop, Slice.cap, ← hc]
    omega
  refine ⟨rfl, ?_, harr, ?_⟩
  · simp only [callerView, Slice.cap]; exact hcap
  · intro hle
    have hle2 : res.count ≤ res.callerArr.length := by
      rw [hcap]; exact hle
    simp only [callerView, Slice.upTo, Slice.cap, if_pos hle2, Option.map_some, Slice.bytes,
      Option.some.injEq]
    rw [harr, List.take_of_length_le (by rw [← hc]; exact hle), hc]
    simp [Slice.bytes]

/-- Witness of C13, amended: the run of the refutation. -/
theorem C13_caller_array_written_witness :
    (callerView { arr := [7, 8, 9], len := 3 } ⟨1, [65], 2, [65, 8, 9]⟩).len = 3 ∧
    (callerView { arr := [7, 8, 9], len := 3 } ⟨1, [65], 2, [65, 8, 9]⟩).cap = 3 ∧
    (callerView { arr := [7, 8, 9], len := 3 } ⟨1, [65], 2, [65, 8, 9]⟩).arr =
      ([65] : List Byte).take 3 ++ ([7, 8, 9] : List Byte).drop (min 1 3) ∧
    (1 ≤ 3 →
      ((callerView { arr := [7, 8, 9], len := 3 } ⟨1, [65], 2, [65, 8, 9]⟩).upTo 1).map
        Slice.bytes = some [65]) :=
  C13_caller_array_written (fun c => 2 * c) 2 (Port.feed [ok 65, ok 10] (fun _ => idle))
    { arr := [7, 8, 9], len := 3 } ⟨1, [65], 2, [65, 8, 9]⟩ (by decide)

end smartparallel

/-! ## Theorems: maps -/

theorem find_filter_ne (es : List (String × String)) (k k2 : String) (h : k ≠ k2) :
    (es.filter (fun e => decide (e.1 ≠ k))).find? (fun e => decide (e.1 = k2)) =
      es.find? (fun e => decide (e.1 = k2)) := by
  induction es with
  | nil => rfl
  | cons e es ih =>
    by_cases h1 : e.1 = k
    · have h2 : ¬ e.1 = k2 := fun h2 => h (h1.symm.trans h2)
      have b1 : decide (e.1 ≠ k) = false := by simp [h1]
      have b2 : decide (e.1 = k2) = false := by simp [h2]
      rw [List.filter_cons, List.find?_cons, b1, b2]
      simpa using ih
    · have b1 : decide (e.1 ≠ k) = true := by simp [h1]
      rw [List.filter_cons, b1, if_pos rfl, List.find?_cons, List.find?_cons, ih]

/-- Reading a map after an assignment: the assigned key gives the new value,
every other key what it gave before. -/
theorem GoMap.lookup_set (es : List (String × String)) (k v k2 : String) :
    ∃ es2, (GoMap.mk es).set k v = some (.mk es2) ∧
      (GoMap.mk es2).lookup k2 = if k = k2 then some v else (GoMap.mk es).lookup k2 := by
  refine ⟨_, rfl, ?_⟩
  by_cases h : k = k2
  · simp [GoMap.lookup, GoMap.entries, List.find?, h]
  · simp only [GoMap.lookup, GoMap.entries, List.find?, h, decide_False, if_false]
    rw [find_filter_ne es k k2 h]

theorem GoMap.get_set (es : List (String × String)) (k v k2 : String) :
    ∃ es2, (GoMap.mk es).set k v = some (.mk es2) ∧
      (GoMap.mk es2).get k2 = if k = k2 then v else (GoMap.mk es).get k2 := by
  obtain ⟨es2, h1, h2⟩ := GoMap.lookup_set es k v k2
  refine ⟨es2, h1, ?_⟩
  simp only [GoMap.get, h2]
  split <;> rfl

/-! ## Theorems: splitting, joining and trimming -/

namespace strings

theorem splitChars_ne_nil (sep : Char) (l : List Char) : splitChars sep l ≠ [] := by
  induction l with
  | nil => simp [splitChars]
  | cons c cs ih =>
    simp only [splitChars]
    split
    · simp
    · split
      · simp
      · simp

/-- The first piece of a split is the text before the first separator; the
other pieces are the split of the text after it. -/
theorem splitChars_eq (sep : Char) (l : List Char) :
    splitChars sep l =
      l.takeWhile (fun c => decide (c ≠ sep)) ::
        (if sep ∈ l then splitChars sep ((l.dropWhile (fun c => decide (c ≠ sep))).drop 1)
         else []) := by
  induction l with
  | nil => simp [splitChars]
  | cons c cs ih =>
    by_cases hc : c = sep
    · simp [splitChars, hc, List.takeWhile, List.dropWhile]
    · have hc2 : ¬ sep = c := fun e => hc e.symm
      simp only [splitChars, hc, if_false]
      rw [ih]
      simp [List.takeWhile, List.dropWhile, hc, hc2]

/-- Joining the pieces of a split with the separator gives the text back. -/
theorem join_split (sep : Char) (l : List Char) :
    (Join ((splitChars sep l).map String.mk) (String.mk [sep])).data = l := by
  induction l with
  | nil => simp [splitChars, Join]
  | cons c cs ih =>
    by_cases hc : c = sep
    · simp only [splitChars, hc, if_true]
      cases hs : splitChars sep cs with
      | nil => exact absurd hs (splitChars_ne_nil sep cs)
      | cons q qs =>
        rw [hs] at ih
        simp only [List.map_cons, Join, String.data_append]
        simp only [List.map_cons] at ih
        rw [ih]
        simp
    · simp only [splitChars, hc, if_false]
      cases hs : splitChars sep cs with
      | nil => exact absurd hs (splitChars_ne_nil sep cs)
      | cons q qs =>
        rw [hs] at ih
        cases qs with
        | nil =>
          simp only [List.map_cons, List.map_nil, Join] at ih ⊢
          rw [← ih]
        | cons q2 qs2 =>
          simp only [List.map_cons, Join, String.data_append] at ih ⊢
          rw [← ih]
          simp

theorem dropWhile_spaces (p : Char → Bool) (ws x : List Char) (h : ∀ c ∈ ws, p c = true) :
    (ws ++ x).dropWhile p = x.dropWhile p := by
  induction ws with
  | nil => rfl
  | cons w ws ih =>
    have hw : p w = true := h w (List.mem_cons_self _ _)
    simp only [List.cons_append, List.dropWhile_cons, hw, if_true]
    exact ih (fun c hc => h c (List.mem_cons_of_mem _ hc))

theorem takeWhile_spaces (p : Char → Bool) (ws x : List Char) (h : ∀ c ∈ ws, p c = true) :
    (ws ++ x).takeWhile p = ws ++ x.takeWhile p := by
  induction ws with
  | nil => rfl
  | cons w ws ih =>
    have hw : p w = true := h w (List.mem_cons_self _ _)
    simp only [List.cons_append, List.takeWhile_cons, hw, if_true]
    rw [ih (fun c hc => h c (List.mem_cons_of_mem _ hc))]

theorem trimLeft_spaces (ws x : List Char) (h : ∀ c ∈ ws, isSpace c = true) :
    trimLeft (ws ++ x) = trimLeft x := dropWhile_spaces isSpace ws x h

theorem trimRight_spaces (x ws : List Char) (h : ∀ c ∈ ws, isSpace c = true) :
    trimRight (x ++ ws) = trimRight x := by
  unfold trimRight
  rw [List.reverse_append, dropWhile_spaces isSpace ws.reverse x.reverse
    (fun c hc => h c (List.mem_reverse.mp hc))]

/-- White space in front of a text does not change its trimmed form. -/
theorem trim_spaces_left (ws x : List Char) (h : ∀ c ∈ ws, isSpace c = true) :
    trimRight (trimLeft (ws ++ x)) = trimRight (trimLeft x) := by
  rw [trimLeft_spaces ws x h]

/-- White space behind a text does not change its trimmed form. -/
theorem trim_spaces_right (x ws : List Char) (h : ∀ c ∈ ws, isSpace c = true) :
    trimRight (trimLeft (x ++ ws)) = trimRight (trimLeft x) := by
  induction x with
  | nil =>
    have h1 : trimLeft ([] ++ ws) = [] := by
      have := trimLeft_spaces ws [] h
      simpa [trimLeft] using this
    rw [h1]; rfl
  | cons c cs ih =>
    by_cases hc : isSpace c = true
    · have e1 : trimLeft (c :: cs ++ ws) = trimLeft (cs ++ ws) := by
        simp [trimLeft, List.dropWhile_cons, hc]
      have e2 : trimLeft (c :: cs) = trimLeft cs := by
        simp [trimLeft, List.dropWhile_cons, hc]
      rw [e1, e2, ih]
    · have e1 : trimLeft (c :: cs ++ ws) = (c :: cs) ++ ws := by
        simp [trimLeft, List.dropWhile_cons, hc]
      have e2 : trimLeft (c :: cs) = c :: cs := by
        simp [trimLeft, List.dropWhile_cons, hc]
      rw [e1, e2, trimRight_spaces _ ws h]

/-- A text is white space followed by its left-trimmed form. -/
theorem trimLeft_split (l : List Char) :
    ∃ ws, (∀ c ∈ ws, isSpace c = true) ∧ l = ws ++ trimLeft l :=
  ⟨l.takeWhile isSpace, fun _ hc => List.mem_takeWhile_imp hc,
    (List.takeWhile_append_dropWhile isSpace l).symm⟩

/-- A text is its right-trimmed form followed by white space. -/
theorem trimRight_split (l : List Char) :
    ∃ ws, (∀ c ∈ ws, isSpace c = true) ∧ l = trimRight l ++ ws := by
  refine ⟨(l.reverse.takeWhile isSpace).reverse,
    fun c hc => List.mem_takeWhile_imp (List.mem_reverse.mp hc), ?_⟩
  unfold trimRight
  rw [← List.reverse_append, List.takeWhile_append_dropWhile, List.reverse_reverse]

theorem takeWhile_stop (p : Char → Bool) (a b : List Char) (h : ∃ c ∈ a, p c = false) :
    (a ++ b).takeWhile p = a.takeWhile p := by
  induction a with
  | nil => obtain ⟨c, hc, _⟩ := h; simp at hc
  | cons x xs ih =>
    by_cases hx : p x = true
    · obtain ⟨c, hc, hpc⟩ := h
      have hin : ∃ c ∈ xs, p c = false := by
        rcases List.mem_cons.mp hc with e | e
        · rw [e, hx] at hpc; cases hpc
        · exact ⟨c, e, hpc⟩
      simp only [List.cons_append, List.takeWhile_cons, hx, if_true, ih hin]
    · simp only [List.cons_append, List.takeWhile_cons, hx]
      rfl

theorem dropWhile_stop (p : Char → Bool) (a b : List Char) (h : ∃ c ∈ a, p c = false) :
    (a ++ b).dropWhile p = a.dropWhile p ++ b ∧ a.dropWhile p ≠ [] := by
  induction a with
  | nil => obtain ⟨c, hc, _⟩ := h; simp at hc
  | cons x xs ih =>
    by_cases hx : p x = true
    · obtain ⟨c, hc, hpc⟩ := h
      have hin : ∃ c ∈ xs, p c = false := by
        rcases List.mem_cons.mp hc with e | e
        · rw [e, hx] at hpc; cases hpc
        · exact ⟨c, e, hpc⟩
      simp only [List.cons_append, List.dropWhile_cons, hx, if_true]
      exact ih hin
    · simp only [List.cons_append, List.dropWhile_cons, hx]
      exact ⟨rfl, by simp⟩

theorem takeWhile_all (p : Char → Bool) (a : List Char) (h : ∀ c ∈ a, p c = true) :
    a.takeWhile p = a := by
  have := takeWhile_spaces p a [] h
  simpa using this

/-- White space is not the character `=`. -/
theorem space_ne_eq (c : Char) (h : isSpace c = true) : decide (c ≠ '=') = true := by
  by_cases hc : c = '='
  · rw [hc] at h; exact absurd h (by decide)
  · simp [hc]

theorem not_ne_eq (c : Char) : decide (c ≠ '=') = false ↔ c = '=' := by
  by_cases hc : c = '=' <;> simp [hc]

theorem mem_eq_iff (a : List Char) : '=' ∈ a ↔ ∃ c ∈ a, decide (c ≠ '=') = false := by
  constructor
  · intro h; exact ⟨'=', h, by decide⟩
  · rintro ⟨c, hc, hp⟩
    rw [(not_ne_eq c).mp hp] at hc
    exact hc

theorem not_mem_eq_iff (a : List Char) : ¬ '=' ∈ a ↔ ∀ c ∈ a, decide (c ≠ '=') = true := by
  rw [mem_eq_iff]
  constructor
  · intro h c hc
    by_cases hp : decide (c ≠ '=') = true
    · exact hp
    · exact absurd ⟨c, hc, by simpa using hp⟩ h
  · rintro h ⟨c, hc, hp⟩
    rw [h c hc] at hp; cases hp

theorem spaces_no_eq (ws : List Char) (h : ∀ c ∈ ws, isSpace c = true) : ¬ '=' ∈ ws :=
  (not_mem_eq_iff ws).mpr (fun c hc => space_ne_eq c (h c hc))

/-- A text and its trimmed form: white space, the trimmed form, white
space. -/
theorem trim_split (l : List Char) :
    ∃ ws1 ws2, (∀ c ∈ ws1, isSpace c = true) ∧ (∀ c ∈ ws2, isSpace c = true) ∧
      l = ws1 ++ (trimRight (trimLeft l) ++ ws2) := by
  obtain ⟨ws1, h1, e1⟩ := trimLeft_split l
  obtain ⟨ws2, h2, e2⟩ := trimRight_split (trimLeft l)
  exact ⟨ws1, ws2, h1, h2, by rw [← e2]; exact e1⟩

/-- The trimmed form of a text has an `=` exactly when the text has one. -/
theorem trim_mem_eq (l : List Char) : '=' ∈ trimRight (trimLeft l) ↔ '=' ∈ l := by
  obtain ⟨ws1, ws2, h1, h2, e⟩ := trim_split l
  have n1 := spaces_no_eq ws1 h1
  have n2 := spaces_no_eq ws2 h2
  constructor
  · intro h; rw [e]; simp [h]
  · intro h
    rw [e] at h
    simp only [List.mem_append] at h
    rcases h with h | h | h
    · exact absurd h n1
    · exact h
    · exact absurd h n2

/-- Trimming the text before the first `=` gives the same for a text and for
its trimmed form. -/
theorem trim_before (l : List Char) :
    trimRight (trimLeft ((trimRight (trimLeft l)).takeWhile (fun c => decide (c ≠ '=')))) =
      trimRight (trimLeft (l.takeWhile (fun c => decide (c ≠ '=')))) := by
  obtain ⟨ws1, ws2, h1, h2, e⟩ := trim_split l
  generalize trimRight (trimLeft l) = core at e ⊢
  have p1 : ∀ c ∈ ws1, decide (c ≠ '=') = true := fun c hc => space_ne_eq c (h1 c hc)
  have p2 : ∀ c ∈ ws2, decide (c ≠ '=') = true := fun c hc => space_ne_eq c (h2 c hc)
  rw [e, takeWhile_spaces _ ws1 _ p1, trim_spaces_left _ _ h1]
  by_cases hc : '=' ∈ core
  · rw [takeWhile_stop _ core ws2 ((mem_eq_iff core).mp hc)]
  · have hall := (not_mem_eq_iff core).mp hc
    rw [takeWhile_spaces _ core ws2 hall, takeWhile_all _ ws2 p2, takeWhile_all _ core hall,
      trim_spaces_right _ _ h2]

/-- Trimming the text after the first `=` gives the same for a text and for
its trimmed form. -/
theorem trim_after (l : List Char) (h : '=' ∈ l) :
    trimRight (trimLeft
        (((trimRight (trimLeft l)).dropWhile (fun c => decide (c ≠ '='))).drop 1)) =
      trimRight (trimLeft ((l.dropWhile (fun c => decide (c ≠ '='))).drop 1)) := by
  have hcore := (trim_mem_eq l).mpr h
  obtain ⟨ws1, ws2, h1, h2, e⟩ := trim_split l
  generalize trimRight (trimLeft l) = core at e hcore ⊢
  have p1 : ∀ c ∈ ws1, decide (c ≠ '=') = true := fun c hc => space_ne_eq c (h1 c hc)
  obtain ⟨d1, d2⟩ := dropWhile_stop (fun c => decide (c ≠ '=')) core ws2 ((mem_eq_iff core).mp hcore)
  rw [e, dropWhile_spaces _ ws1 _ p1, d1]
  cases hd : core.dropWhile (fun c => decide (c ≠ '=')) with
  | nil => exact absurd hd d2
  | cons x xs =>
    simp only [List.cons_append, List.drop_succ_cons, List.drop_zero]
    rw [trim_spaces_right _ _ h2]

end strings

/-! ## Theorems: webutils -/

namespace webutils

/-- On the nil map the loop body of `ParseParams` panics, whatever the item. -/
theorem paramsStep_nil (item : String) : paramsStep .nil item = none := by
  have hne : strings.Split item '=' ≠ [] := by
    simp [strings.Split, strings.splitChars_ne_nil]
  unfold paramsStep
  simp only []
  generalize strings.Split item '=' = itemArr at hne
  match itemArr, hne with
  | [], h => exact absurd rfl h
  | [_], _ => rfl
  | [_, _], _ => rfl
  | _ :: _ :: _ :: _, _ => rfl

/-- C7: `ParseParams` never allocates its result map, so on every non-empty
list the first assignment `params[...] = ...` panics and no map is returned;
on the empty list it returns the nil map and the error "empty list". -/
theorem C7_ParseParams_nil_map (items : List String) (h : items ≠ []) :
    ParseParams items = none ∧ ParseParams [] = some (.nil, some "empty list") := by
  constructor
  · cases items with
    | nil => exact absurd rfl h
    | cons a as =>
      simp [ParseParams, List.foldlM, paramsStep_nil]
  · rfl

/-- Witness of C7: the one-item list `a=b`. -/
theorem C7_ParseParams_nil_map_witness :
    ParseParams ["a=b"] = none ∧ ParseParams [] = some (.nil, some "empty list") :=
  C7_ParseParams_nil_map ["a=b"] (by simp)

/-- On the nil map the loop body of `SimpleParseQuery` panics, whatever the
key and its values. -/
theorem queryStep_nil (kv : String × List String) : queryStep .nil kv = none := by
  unfold queryStep
  simp only
  split
  · rfl
  · split <;> rfl

/-- The string that `SimpleParseQuery` parses: for a query without `?` the
error "no query", otherwise the text after the first `?`. -/
theorem queryString_split (query : String) :
    queryString (strings.Split query '?') =
      if '?' ∈ query.data then .ok (afterQuestion query) else .error "no query" := by
  have hsplit : strings.Split query '?' =
      String.mk (query.data.takeWhile (fun c => decide (c ≠ '?'))) ::
        (if '?' ∈ query.data then
          (strings.splitChars '?' (afterQuestion query).data).map String.mk else []) := by
    unfold strings.Split afterQuestion
    rw [strings.splitChars_eq '?' query.data]
    by_cases hm : '?' ∈ query.data <;> simp [hm]
  rw [hsplit]
  by_cases hm : '?' ∈ query.data
  · simp only [hm, if_true]
    have hj := strings.join_split '?' (afterQuestion query).data
    cases hs : strings.splitChars '?' (afterQuestion query).data with
    | nil => exact absurd hs (strings.splitChars_ne_nil _ _)
    | cons q qs =>
      rw [hs] at hj
      cases qs with
      | nil =>
        simp only [List.map_cons, List.map_nil, strings.Join] at hj ⊢
        simp only [queryString]
        rw [hj]
      | cons q2 qs2 =>
        simp only [List.map_cons] at hj ⊢
        simp only [queryString]
        congr 1
        apply String.ext
        exact hj
  · simp only [hm, if_false]
    rfl

/-- A query shorter than three bytes gives the error "query too short". -/
theorem SimpleParseQuery_short
    (ParseQuery : String → Except String (List (String × List String))) (query : String)
    (h : query.utf8ByteSize < 3) :
    SimpleParseQuery ParseQuery query = some (.nil, some "query too short") := by
  unfold SimpleParseQuery
  simp only [h, if_true]

/-- A query of three bytes or more without `?` gives the error "no query". -/
theorem SimpleParseQuery_no_query
    (ParseQuery : String → Except String (List (String × List String))) (query : String)
    (h3 : 3 ≤ query.utf8ByteSize) (hq : ¬ '?' ∈ query.data) :
    SimpleParseQuery ParseQuery query = some (.nil, some "no query") := by
  unfold SimpleParseQuery
  have h : ¬ query.utf8ByteSize < 3 := by omega
  simp only [h, if_false, queryString_split, hq]

/-- A query whose text after the first `?` parses to no key at all gives the
nil map and a nil error. -/
theorem SimpleParseQuery_no_keys
    (ParseQuery : String → Except String (List (String × List String))) (query : String)
    (h3 : 3 ≤ query.utf8ByteSize) (hq : '?' ∈ query.data)
    (hp : ParseQuery (afterQuestion query) = .ok []) :
    SimpleParseQuery ParseQuery query = some (.nil, none) := by
  unfold SimpleParseQuery
  have h : ¬ query.utf8ByteSize < 3 := by omega
  simp only [h, if_false, queryString_split, hq, if_true, hp]
  rfl

/-- C15: `SimpleParseQuery` never allocates its result map, so for every query
of at least three bytes that contains a `?` and whose text after the first
`?` the URL query parser accepts with at least one key, the first
assignment `params[k] = ...` panics and no map is returned. -/
theorem C15_SimpleParseQuery_nil_map
    (ParseQuery : String → Except String (List (String × List String))) (query : String)
    (items : List (String × List String)) (h3 : 3 ≤ query.utf8ByteSize)
    (hq : '?' ∈ query.data) (hp : ParseQuery (afterQuestion query) = .ok items)
    (hne : items ≠ []) :
    SimpleParseQuery ParseQuery query = none := by
  unfold SimpleParseQuery
  have h : ¬ query.utf8ByteSize < 3 := by omega
  simp only [h, if_false, queryString_split, hq, if_true, hp]
  cases items with
  | nil => exact absurd rfl hne
  | cons kv rest => simp [List.foldlM, queryStep_nil]

/-- Witness of C15: the query `/?a=b`, for which the parser gives the key `a`
with the single value `b`. -/
theorem C15_SimpleParseQuery_nil_map_witness :
    SimpleParseQuery (fun s => if s = "a=b" then .ok [("a", ["b"])] else .ok []) "/?a=b"
      = none :=
  C15_SimpleParseQuery_nil_map (fun s => if s = "a=b" then .ok [("a", ["b"])] else .ok [])
    "/?a=b" [("a", ["b"])] (by decide) (by decide)
    (if_pos (by decide : afterQuestion "/?a=b" = "a=b")) (by simp)

end webutils

/-! ## Theorems: fileutils -/

namespace fileutils

open strings

/-- On a non-empty line `isComment` does not panic and tells whether the first
character is `#`, `;` or `/`. -/
theorem isComment_cons (ln : String) (c : Char) (cs : List Char) (h : ln.data = c :: cs) :
    isComment ln = some (decide (c = '#') || decide (c = ';') || decide (c = '/')) := by
  have e1 : (String.singleton c = "#") ↔ c = '#' := by
    constructor
    · intro e; have := congrArg String.data e; simpa using this
    · intro e; rw [e]; rfl
  have e2 : (String.singleton c = ";") ↔ c = ';' := by
    constructor
    · intro e; have := congrArg String.data e; simpa using this
    · intro e; rw [e]; rfl
  have e3 : (String.singleton c = "/") ↔ c = '/' := by
    constructor
    · intro e; have := congrArg String.data e; simpa using this
    · intro e; rw [e]; rfl
  simp only [isComment, commentChars, List.foldlM, firstByte, h, bind, Option.bind, pure, e1, e2, e3]
  by_cases h1 : c = '#' <;> by_cases h2 : c = ';' <;> by_cases h3 : c = '/' <;>
    simp [h1, h2, h3]

/-- The `switch` of `ReadConfigFile` on the pieces of a line: its three cases
all write the text before the first `=` as key and the text after it, or
the empty string when there is no `=`, as value, both trimmed. -/
theorem switch_cases (es : List (String × String)) (line : String) :
    (match Split line '=' with
      | [] => none
      | [k] => (GoMap.mk es).set (TrimSpace k) ""
      | [k, v] => (GoMap.mk es).set (TrimSpace k) (TrimSpace v)
      | k :: rest => (GoMap.mk es).set (TrimSpace k) (TrimSpace (Join rest "="))) =
    (GoMap.mk es).set (TrimSpace (beforeEq line))
      (if '=' ∈ line.data then TrimSpace (afterEq line) else "") := by
  have hsplit : Split line '=' =
      beforeEq line :: (if '=' ∈ line.data then
        (splitChars '=' (afterEq line).data).map String.mk else []) := by
    unfold Split beforeEq afterEq
    rw [splitChars_eq '=' line.data]
    by_cases hm : '=' ∈ line.data <;> simp [hm]
  rw [hsplit]
  by_cases hm : '=' ∈ line.data
  · simp only [hm, if_true]
    have hj := join_split '=' (afterEq line).data
    cases hs : splitChars '=' (afterEq line).data with
    | nil => exact absurd hs (splitChars_ne_nil _ _)
    | cons q qs =>
      rw [hs] at hj
      cases qs with
      | nil =>
        simp only [List.map_cons, List.map_nil, Join] at hj ⊢
        have hq : String.mk q = afterEq line := by
          rw [hj]
        rw [hq]
      | cons q2 qs2 =>
        simp only [List.map_cons] at hj ⊢
        have hq : Join (String.mk q :: String.mk q2 :: List.map String.mk qs2) "=" =
            afterEq line := by
          apply String.ext
          exact hj
        rw [hq]
  · simp only [hm, if_false]

/-- One line of the file: a blank line or a comment leaves the map alone, any
other line writes the documented key and value; no line makes the body
panic. -/
theorem lineStep_spec (es : List (String × String)) (text : String) :
    lineStep (.mk es) text =
      some (if contributes text then
        GoMap.mk ((specKey text, specValue text) :: es.filter (fun e => e.1 ≠ specKey text))
      else GoMap.mk es) := by
  have hkey : TrimSpace (beforeEq (TrimSpace text)) = specKey text := by
    unfold specKey TrimSpace beforeEq
    simp only
    rw [trim_before]
  have hmem : '=' ∈ (TrimSpace text).data ↔ '=' ∈ text.data := by
    unfold TrimSpace; exact trim_mem_eq text.data
  have hval : (if '=' ∈ (TrimSpace text).data then TrimSpace (afterEq (TrimSpace text)) else "")
      = specValue text := by
    unfold specValue
    by_cases hm : '=' ∈ text.data
    · rw [if_pos hm, if_pos (hmem.mpr hm)]
      unfold TrimSpace afterEq
      simp only
      rw [trim_after _ hm]
    · rw [if_neg hm, if_neg (fun h => hm (hmem.mp h))]
  unfold lineStep
  simp only
  cases hd : (TrimSpace text).data with
  | nil =>
    have hlen : ¬ 0 < (TrimSpace text).length := by
      simp [String.length, hd]
    have hc : contributes text = false := by
      simp [contributes, isBlank, hd]
    rw [if_neg hlen, hc]
    rfl
  | cons c cs =>
    have hlen : 0 < (TrimSpace text).length := by
      simp [String.length, hd]
    rw [if_pos hlen, isComment_cons _ c cs hd]
    by_cases hcm : (decide (c = '#') || decide (c = ';') || decide (c = '/')) = true
    · have hc : contributes text = false := by
        simp only [contributes, startsComment, hd, hcm]
        simp
      rw [hcm, hc]
      rfl
    · have hcm2 : (decide (c = '#') || decide (c = ';') || decide (c = '/')) = false := by
        simpa using hcm
      have hc : contributes text = true := by
        simp only [contributes, isBlank, startsComment, hd, hcm2]
        simp
      rw [hcm2, hc]
      simp only
      rw [switch_cases, hkey, hval]
      rfl

/-- The scanner loop never panics and computes the documented fold, from any
allocated map. -/
theorem foldlM_lineStep (lines : List String) (es : List (String × String)) :
    lines.foldlM lineStep (.mk es) =
      some (lines.foldl
        (fun m text =>
          if contributes text then
            GoMap.mk ((specKey text, specValue text) ::
              m.entries.filter (fun e => e.1 ≠ specKey text))
          else m)
        (.mk es)) := by
  induction lines generalizing es with
  | nil => rfl
  | cons t ts ih =>
    simp only [List.foldlM, List.foldl, lineStep_spec, bind, Option.bind]
    by_cases hc : contributes t = true
    · simp only [hc, if_true, GoMap.entries]
      exact ih _
    · simp only [hc, if_false, Bool.false_eq_true]
      exact ih _

theorem lookup_written (es : List (String × String)) (k v k2 : String) :
    (GoMap.mk ((k, v) :: es.filter (fun e => e.1 ≠ k))).lookup k2 =
      if k = k2 then some v else (GoMap.mk es).lookup k2 := by
  obtain ⟨es2, h1, h2⟩ := GoMap.lookup_set es k v k2
  simp only [GoMap.set, Option.some.injEq, GoMap.mk.injEq] at h1
  rw [h1]
  exact h2

theorem specConfig_mk (lines : List String) : ∃ es, specConfig lines = .mk es := by
  induction lines using List.reverseRecOn with
  | nil => exact ⟨[], rfl⟩
  | append_singleton ls t ih =>
    obtain ⟨es, he⟩ := ih
    unfold specConfig at he ⊢
    rw [List.foldl_append]
    simp only [List.foldl]
    rw [he]
    by_cases hc : contributes t = true
    · exact ⟨_, by rw [if_pos hc]⟩
    · exact ⟨es, by rw [if_neg hc]⟩

/-- In the documented map the value of a key is written by the last line
with that key among the lines that are neither blank nor comments. -/
theorem specConfig_lookup (lines : List String) (k : String) :
    (specConfig lines).lookup k =
      (((lines.filter contributes).reverse).find? (fun t => decide (specKey t = k))).map
        specValue := by
  induction lines using List.reverseRecOn with
  | nil => rfl
  | append_singleton ls t ih =>
    obtain ⟨es, he⟩ := specConfig_mk ls
    have hstep : specConfig (ls ++ [t]) =
        if contributes t then
          GoMap.mk ((specKey t, specValue t) :: es.filter (fun e => e.1 ≠ specKey t))
        else GoMap.mk es := by
      unfold specConfig at he ⊢
      rw [List.foldl_append]
      simp only [List.foldl]
      rw [he]
      rfl
    rw [hstep, List.filter_append, List.reverse_append]
    rw [he] at ih
    by_cases hc : contributes t = true
    · rw [if_pos hc, lookup_written, ih]
      by_cases hk : specKey t = k
      · simp [List.filter, hc, hk]
      · simp [List.filter, hc, hk]
    · have hc2 : contributes t = false := by simpa using hc
      rw [if_neg hc, ih]
      simp [List.filter, hc2]

/-- `isComment` panics on the empty string and on no other. -/
theorem isComment_none_iff (ln : String) : isComment ln = none ↔ ln = "" := by
  cases hd : ln.data with
  | nil =>
    have he : ln = "" := String.ext hd
    rw [he]
    exact ⟨fun _ => rfl, fun _ => rfl⟩
  | cons c cs =>
    rw [isComment_cons ln c cs hd]
    constructor
    · intro h; cases h
    · intro h
      rw [h] at hd
      cases hd

/-- Removing the lines that are blank or comments does not change the
documented map. -/
theorem specConfig_filter (lines : List String) :
    specConfig (lines.filter contributes) = specConfig lines := by
  unfold specConfig
  generalize GoMap.mk [] = init
  induction lines generalizing init with
  | nil => rfl
  | cons t ts ih =>
    by_cases hc : contributes t = true
    · rw [List.filter_cons, if_pos hc]
      simp only [List.foldl]
      exact ih _
    · rw [List.filter_cons, if_neg hc]
      simp only [List.foldl, hc, if_false, Bool.false_eq_true]
      exact ih _

/-- A final carriage return is white space: dropping it does not change the
trimmed line. -/
theorem TrimSpace_dropCR (l : String) : TrimSpace (dropCR l) = TrimSpace l := by
  unfold dropCR
  split
  · rename_i h
    have e : l.data.dropLast ++ ['\r'] = l.data :=
      List.dropLast_append_getLast? '\r' (by rw [h]; exact rfl)
    unfold TrimSpace
    simp only
    generalize l.data.dropLast = d at e
    rw [← e, trim_spaces_right d ['\r'] (by intro c hc; simp at hc; rw [hc]; decide)]
  · rfl

/-- The loop body only looks at the trimmed line, so it does the same on a
line with and without its final carriage return. -/
theorem lineStep_dropCR (m : GoMap) (l : String) : lineStep m (dropCR l) = lineStep m l := by
  unfold lineStep
  simp only [TrimSpace_dropCR]

/-- The scanner loop does on a file what the loop body does on its lines up
to the first line that does not fit the buffer. -/
theorem foldlM_scanLines (lines : List String) (m : GoMap) :
    (scanLines lines).foldlM lineStep m = (lines.takeWhile fits).foldlM lineStep m := by
  induction lines generalizing m with
  | nil => rfl
  | cons l ls ih =>
    by_cases hf : fits l = true
    · simp only [scanLines, hf, if_true, List.takeWhile_cons, List.foldlM, lineStep_dropCR]
      cases lineStep m l with
      | none => rfl
      | some m1 => exact ih m1
    · simp only [scanLines, hf, List.takeWhile_cons]
      rfl

/-- The reader returns, with a nil error, the documented map of the lines
before the first line that does not fit the buffer. -/
theorem ReadConfigFile_ok (lines : List String) :
    ReadConfigFile (.ok lines) = some (specConfig (lines.takeWhile fits), none) := by
  unfold ReadConfigFile
  simp only [foldlM_scanLines, foldlM_lineStep]
  rfl

theorem takeWhile_fits_all (lines : List String) (h : ∀ l ∈ lines, fits l = true) :
    lines.takeWhile fits = lines := by
  induction lines with
  | nil => rfl
  | cons l ls ih =>
    rw [List.takeWhile_cons, h l (List.mem_cons_self _ _)]
    simp only [if_true]
    rw [ih (fun x hx => h x (List.mem_cons_of_mem _ hx))]

theorem takeWhile_fits_stop (pre post : List String) (long : String)
    (hpre : ∀ l ∈ pre, fits l = true) (hlong : fits long = false) :
    (pre ++ long :: post).takeWhile fits = pre := by
  induction pre with
  | nil => simp [List.takeWhile_cons, hlong]
  | cons l ls ih =>
    rw [List.cons_append, List.takeWhile_cons, hpre l (List.mem_cons_self _ _)]
    simp only [if_true]
    rw [ih (fun x hx => hpre x (List.mem_cons_of_mem _ hx))]

/-- A string has at least one byte for each of its characters. -/
theorem length_le_utf8ByteSize (t : String) : t.data.length ≤ t.utf8ByteSize := by
  cases t with
  | mk d =>
    show d.length ≤ String.utf8ByteSize.go d
    induction d with
    | nil => exact Nat.le_refl _
    | cons c cs ih =>
      have hc : 0 < c.utf8Size := Char.utf8Size_pos c
      simp only [String.utf8ByteSize.go, List.length_cons]
      omega

/-- The trimmed form of a text that starts with a character other than white
space starts with that character. -/
theorem trim_head (c : Char) (cs : List Char) (hc : isSpace c = false) :
    ∃ rest, trimRight (trimLeft (c :: cs)) = c :: rest := by
  have hl : trimLeft (c :: cs) = c :: cs := by
    simp [trimLeft, List.dropWhile_cons, hc]
  rw [hl]
  obtain ⟨ws, hws, e⟩ := trimRight_split (c :: cs)
  cases ht : trimRight (c :: cs) with
  | nil =>
    rw [ht] at e
    simp only [List.nil_append] at e
    have := hws c (by rw [← e]; exact List.mem_cons_self _ _)
    rw [hc] at this
    cases this
  | cons d ds =>
    rw [ht] at e
    simp only [List.cons_append, List.cons.injEq] at e
    exact ⟨ds, by rw [e.1]⟩

/-- A line whose first character is `#` is a comment, whatever follows. -/
theorem hash_line_is_comment (cs : List Char) : contributes (String.mk ('#' :: cs)) = false := by
  obtain ⟨rest, hr⟩ := trim_head '#' cs (by decide)
  have hs : startsComment (String.mk ('#' :: cs)) = true := by
    simp only [startsComment, TrimSpace, hr]
    decide
  simp [contributes, hs]

/-- On a file all of whose lines fit the scanner's buffer the reader returns
the documented map with a nil error. -/
theorem short_lines_config (lines : List String) (h : ∀ l ∈ lines, fits l = true) :
    ReadConfigFile (.ok lines) = some (specConfig lines, none) := by
  rw [ReadConfigFile_ok, takeWhile_fits_all lines h]

/-- On a file all of whose lines fit the scanner's buffer, removing the blank
lines and the comments does not change the map read. -/
theorem short_lines_filter (lines : List String) (h : ∀ l ∈ lines, fits l = true) :
    ReadConfigFile (.ok lines) = ReadConfigFile (.ok (lines.filter contributes)) := by
  rw [short_lines_config lines h,
    short_lines_config _ (fun l hl => h l (List.mem_filter.mp hl).1), specConfig_filter]

/-- A line leaves every map as it is exactly when it is blank or a comment;
any other line writes its entry; the loop body never panics. -/
theorem line_skipped_iff (text : String) :
    ((∀ es : List (String × String), lineStep (.mk es) text = some (.mk es)) ↔
      (isBlank text = true ∨ startsComment text = true)) ∧
    (¬ (isBlank text = true ∨ startsComment text = true) →
      ∀ es : List (String × String), ∃ es2, lineStep (.mk es) text = some (.mk es2) ∧
        (GoMap.mk es2).lookup (specKey text) = some (specValue text)) ∧
    (∀ es : List (String × String), lineStep (.mk es) text ≠ none) := by
  have hcon : contributes text = true ↔ ¬ (isBlank text = true ∨ startsComment text = true) := by
    unfold contributes
    cases isBlank text <;> cases startsComment text <;> simp
  refine ⟨?_, ?_, ?_⟩
  · constructor
    · intro h
      by_cases hc : contributes text = true
      · have h0 := h []
        rw [lineStep_spec, if_pos hc] at h0
        simp at h0
      · by_cases hb : isBlank text = true ∨ startsComment text = true
        · exact hb
        · exact absurd (hcon.mpr hb) hc
    · intro hb es
      have hc : ¬ contributes text = true := fun hc => (hcon.mp hc) hb
      rw [lineStep_spec, if_neg hc]
  · intro hb es
    have hc := hcon.mpr hb
    refine ⟨_, by rw [lineStep_spec, if_pos hc], ?_⟩
    rw [lookup_written, if_pos rfl]
  · intro es
    rw [lineStep_spec]; simp

/-- A string that ends in `n` copies of a character has at least `n` bytes
more than it has characters before them. -/
theorem long_line_size (cs : List Char) (e : Char) (n : Nat) :
    cs.length + n ≤ (String.mk (cs ++ List.replicate n e)).utf8ByteSize := by
  have h := length_le_utf8ByteSize (String.mk (cs ++ List.replicate n e))
  simp only [List.length_append, List.length_replicate] at h
  exact h

/-- A line that ends in so many copies of a character that it has 64 KiB of
characters does not fit the scanner's buffer. -/
theorem long_line_too_long (cs : List Char) (e : Char) (n : Nat)
    (h : MaxScanTokenSize ≤ cs.length + n) :
    MaxScanTokenSize < (String.mk (cs ++ List.replicate n e)).utf8ByteSize + 1 :=
  Nat.lt_succ_of_le (Nat.le_trans h (long_line_size cs e n))

theorem fits_of_size (l : String) (h : l.utf8ByteSize + 1 ≤ MaxScanTokenSize) :
    fits l = true := by
  simp [fits, h]

theorem not_fits_of_size (l : String) (h : MaxScanTokenSize < l.utf8ByteSize + 1) :
    fits l = false := by
  have : ¬ l.utf8ByteSize + 1 ≤ MaxScanTokenSize := by omega
  simp [fits, this]

/-- The entry of a line behind a long line: present in the documented map of
the whole file, absent from the map of the lines before the long one. -/
theorem sample_dropped_entry :
    (specConfig ["a=1"]).lookup "b" = none ∧
    (specConfig (["a=1"] ++ ["b=2"])).lookup "b" = some "2" ∧
    specConfig ["a=1"] = .mk [("a", "1")] := by decide

/-- C8: not every line that is neither blank nor a comment contributes an
entry. When a line of the file does
not fit the scanner's buffer (64 KiB with its newline) and the lines `pre`
before it do, `ReadConfigFile` returns with a nil error the map of `pre`
alone: the long line and every line after it contribute no entry, whether
blank, comment or neither. -/
theorem C8_long_line_ends_read (pre post : List String) (long : String)
    (hpre : ∀ l ∈ pre, l.utf8ByteSize + 1 ≤ MaxScanTokenSize)
    (hlong : MaxScanTokenSize < long.utf8ByteSize + 1) :
    ReadConfigFile (.ok (pre ++ long :: post)) = some (specConfig pre, none) := by
  rw [ReadConfigFile_ok,
    takeWhile_fits_stop pre post long (fun l hl => fits_of_size l (hpre l hl))
      (not_fits_of_size long hlong)]

/-- Witness of C8: the file of the three lines `a=1`, `k=` followed by 65534
times `v`, and `b=2`; the map returned is that of `a=1` alone. -/
theorem C8_long_line_ends_read_witness :
    ReadConfigFile
        (.ok (["a=1"] ++ String.mk (['k', '='] ++ List.replicate 65534 'v') :: ["b=2"])) =
      some (specConfig ["a=1"], none) :=
  C8_long_line_ends_read ["a=1"] ["b=2"] (String.mk (['k', '='] ++ List.replicate 65534 'v'))
    (by intro l hl; rw [List.mem_singleton.mp hl]; decide)
    (long_line_too_long ['k', '='] 'v' 65534 (by simp [MaxScanTokenSize]))

/-- C14: a comment line is not always ignored. When a comment line of the
file does not fit the scanner's buffer (64 KiB with its newline) and all
other lines do, `ReadConfigFile` returns with a nil error the map of the
lines `pre` before the comment alone, while on the file with the blank
lines and comments removed it returns the map of all the other lines,
`pre` and `post`. -/
theorem C14_long_comment_ends_read (pre post : List String) (long : String)
    (hpre : ∀ l ∈ pre, l.utf8ByteSize + 1 ≤ MaxScanTokenSize)
    (hpost : ∀ l ∈ post, l.utf8ByteSize + 1 ≤ MaxScanTokenSize)
    (hlong : MaxScanTokenSize < long.utf8ByteSize + 1) (hcom : contributes long = false) :
    ReadConfigFile (.ok (pre ++ long :: post)) = some (specConfig pre, none) ∧
    ReadConfigFile (.ok ((pre ++ long :: post).filter contributes)) =
      some (specConfig (pre ++ post), none) := by
  constructor
  · rw [ReadConfigFile_ok,
      takeWhile_fits_stop pre post long (fun l hl => fits_of_size l (hpre l hl))
        (not_fits_of_size long hlong)]
  · have hf : (pre ++ long :: post).filter contributes = (pre ++ post).filter contributes := by
      rw [List.filter_append, List.filter_cons, hcom, List.filter_append]
      simp
    rw [hf, short_lines_config, specConfig_filter]
    intro l hl
    have hm := (List.mem_filter.mp hl).1
    rcases List.mem_append.mp hm with h | h
    · exact fits_of_size l (hpre l h)
    · exact fits_of_size l (hpost l h)

/-- Witness of C14: the file of the three lines `a=1`, `#` followed by 65535
times `y`, and `b=2`. -/
theorem C14_long_comment_ends_read_witness :
    ReadConfigFile
        (.ok (["a=1"] ++ String.mk (['#'] ++ List.replicate 65535 'y') :: ["b=2"])) =
      some (specConfig ["a=1"], none) ∧
    ReadConfigFile
        (.ok ((["a=1"] ++ String.mk (['#'] ++ List.replicate 65535 'y') :: ["b=2"]).filter
          contributes)) =
      some (specConfig (["a=1"] ++ ["b=2"]), none) :=
  C14_long_comment_ends_read ["a=1"] ["b=2"] (String.mk (['#'] ++ List.replicate 65535 'y'))
    (by intro l hl; rw [List.mem_singleton.mp hl]; decide)
    (by intro l hl; rw [List.mem_singleton.mp hl]; decide)
    (long_line_too_long ['#'] 'y' 65535 (by simp [MaxScanTokenSize]))
    (hash_line_is_comment (List.replicate 65535 'y'))

end fileutils

/-! ## Theorems: emailutils -/

namespace emailutils

theorem length_eq_zero_iff (t : String) : t.length = 0 ↔ t = "" := by
  cases t with
  | mk d =>
    cases d with
    | nil => exact ⟨fun _ => rfl, fun _ => rfl⟩
    | cons c cs =>
      constructor
      · intro h; simp [String.length] at h
      · intro h; exact absurd (congrArg String.data h) (by simp)

/-- The loop body for a key other than `port` and `use_tls`: the map is left
alone and a message is added when the key is absent or empty. -/
theorem keyStep_plain (m : GoMap) (errs : List String) (v : String) (h1 : v ≠ "port")
    (h2 : v ≠ "use_tls") :
    keyStep (m, errs) v =
      some (m, if m.get v = "" then errs ++ ["Missing config value: " ++ v] else errs) := by
  unfold keyStep
  by_cases h : m.get v = ""
  · simp [h, h1, h2]
  · simp [h, h1, h2, length_eq_zero_iff]

/-- The loop body for `port`: no message, and only the entry `port` can
change, to the default when it is absent or empty. -/
theorem keyStep_port (es : List (String × String)) :
    ∃ es2, (∀ errs, keyStep (.mk es, errs) "port" = some (.mk es2, errs)) ∧
      ∀ k, (GoMap.mk es2).get k =
        if k = "port" ∧ (GoMap.mk es).get "port" = "" then
          (if (GoMap.mk es).get "use_tls" = "yes" then "465" else "587")
        else (GoMap.mk es).get k := by
  unfold keyStep
  by_cases h : (GoMap.mk es).get "port" = ""
  · have hl : ((GoMap.mk es).get "port").length = 0 := (length_eq_zero_iff _).mpr h
    simp only [hl, if_true]
    obtain ⟨e1, s1, _⟩ := GoMap.get_set es "port" "587" "port"
    have g1 : ∀ k, (GoMap.mk e1).get k = if "port" = k then "587" else (GoMap.mk es).get k := by
      intro k
      obtain ⟨e1b, s1b, g⟩ := GoMap.get_set es "port" "587" k
      rw [s1] at s1b
      cases s1b
      exact g
    rw [s1]
    have htls : (GoMap.mk e1).get "use_tls" = (GoMap.mk es).get "use_tls" := by
      rw [g1]; simp
    simp only [htls]
    by_cases hy : (GoMap.mk es).get "use_tls" = "yes"
    · obtain ⟨e2, s2, _⟩ := GoMap.get_set e1 "port" "465" "port"
      have g2 : ∀ k, (GoMap.mk e2).get k = if "port" = k then "465" else (GoMap.mk e1).get k := by
        intro k
        obtain ⟨e2b, s2b, g⟩ := GoMap.get_set e1 "port" "465" k
        rw [s2] at s2b
        cases s2b
        exact g
      refine ⟨e2, by intro errs; simp [hy, s2], ?_⟩
      intro k
      rw [g2, g1]
      by_cases hk : k = "port"
      · simp [hk, h, hy]
      · have hk2 : ¬ "port" = k := fun e => hk e.symm
        simp [hk, hk2]
    · refine ⟨e1, by intro errs; simp [hy], ?_⟩
      intro k
      rw [g1]
      by_cases hk : k = "port"
      · simp [hk, h, hy]
      · have hk2 : ¬ "port" = k := fun e => hk e.symm
        simp [hk, hk2]
  · have hl : ¬ ((GoMap.mk es).get "port").length = 0 := fun hl => h ((length_eq_zero_iff _).mp hl)
    refine ⟨es, by intro errs; simp [hl], ?_⟩
    intro k
    simp [h]

/-- The loop body for `use_tls`: no message, and only the entry `use_tls` can
change, to "no" when it is absent or empty. -/
theorem keyStep_tls (es : List (String × String)) :
    ∃ es2, (∀ errs, keyStep (.mk es, errs) "use_tls" = some (.mk es2, errs)) ∧
      ∀ k, (GoMap.mk es2).get k =
        if k = "use_tls" ∧ (GoMap.mk es).get "use_tls" = "" then "no"
        else (GoMap.mk es).get k := by
  unfold keyStep
  by_cases h : (GoMap.mk es).get "use_tls" = ""
  · have hl : ((GoMap.mk es).get "use_tls").length = 0 := (length_eq_zero_iff _).mpr h
    obtain ⟨e1, s1, _⟩ := GoMap.get_set es "use_tls" "no" "use_tls"
    have g1 : ∀ k, (GoMap.mk e1).get k = if "use_tls" = k then "no" else (GoMap.mk es).get k := by
      intro k
      obtain ⟨e1b, s1b, g⟩ := GoMap.get_set es "use_tls" "no" k
      rw [s1] at s1b
      cases s1b
      exact g
    refine ⟨e1, by intro errs; simp [hl, s1], ?_⟩
    intro k
    rw [g1]
    by_cases hk : k = "use_tls"
    · simp [hk, h]
    · have hk2 : ¬ "use_tls" = k := fun e => hk e.symm
      simp [hk, hk2]
  · have hl : ¬ ((GoMap.mk es).get "use_tls").length = 0 :=
      fun hl => h ((length_eq_zero_iff _).mp hl)
    refine ⟨es, by intro errs; simp [hl], ?_⟩
    intro k
    simp [h]

/-- C9: `ReadConfigFile`, as a function of the map `m` and error `err` that the
file reader produced, returns a map `cfg` and an error `errOut` with: `port`
is "465" when it was absent or empty and `use_tls` was exactly "yes", "587"
when it was absent or empty and `use_tls` was anything else or missing;
`use_tls` is "no" when it was absent or empty; every key that had a
non-empty value keeps it; and the error is made only of the message for a
failed read and those for `host`, `user` and `pass`, so that neither
defaulted key causes an error. -/
theorem C9_email_config_defaults (es : List (String × String)) (err : Option String) :
    ∃ cfg errOut, ReadConfigFile.after (.mk es) err = some (cfg, errOut) ∧
      cfg.get "port" =
        (if (GoMap.mk es).get "port" = "" then
          (if (GoMap.mk es).get "use_tls" = "yes" then "465" else "587")
         else (GoMap.mk es).get "port") ∧
      cfg.get "use_tls" =
        (if (GoMap.mk es).get "use_tls" = "" then "no" else (GoMap.mk es).get "use_tls") ∧
      (∀ k, (GoMap.mk es).get k ≠ "" → cfg.get k = (GoMap.mk es).get k) ∧
      errOut =
        (if missingConfig (.mk es) err = [] then none
         else some ("; ".intercalate (missingConfig (.mk es) err))) := by
  obtain ⟨e1, p1, g1⟩ := keyStep_port es
  obtain ⟨e2, p2, g2⟩ := keyStep_tls e1
  have hhost : (GoMap.mk e1).get "host" = (GoMap.mk es).get "host" := by rw [g1]; simp
  have huser : (GoMap.mk e1).get "user" = (GoMap.mk es).get "user" := by rw [g1]; simp
  have hpass : (GoMap.mk e1).get "pass" = (GoMap.mk es).get "pass" := by rw [g1]; simp
  have htls : (GoMap.mk e1).get "use_tls" = (GoMap.mk es).get "use_tls" := by rw [g1]; simp
  have hfold : ∀ errs0 : List String,
      ConfigKeys.foldlM keyStep (GoMap.mk es, errs0) =
        some (GoMap.mk e2,
          ((errs0 ++ (if (GoMap.mk es).get "host" = "" then ["Missing config value: host"] else []))
            ++ (if (GoMap.mk es).get "user" = "" then ["Missing config value: user"] else []))
            ++ (if (GoMap.mk es).get "pass" = "" then ["Missing config value: pass"] else [])) := by
    intro errs0
    have d1 : ("host" : String) ≠ "port" := by decide
    have d2 : ("host" : String) ≠ "use_tls" := by decide
    have d3 : ("user" : String) ≠ "port" := by decide
    have d4 : ("user" : String) ≠ "use_tls" := by decide
    have d5 : ("pass" : String) ≠ "port" := by decide
    have d6 : ("pass" : String) ≠ "use_tls" := by decide
    simp only [ConfigKeys, List.foldlM, keyStep_plain _ _ _ d1 d2, keyStep_plain _ _ _ d3 d4,
      keyStep_plain _ _ _ d5 d6, p1, p2, Option.bind_eq_bind, Option.some_bind, bind, huser, hpass]
    by_cases c1 : (GoMap.mk es).get "host" = "" <;>
      by_cases c2 : (GoMap.mk es).get "user" = "" <;>
      by_cases c3 : (GoMap.mk es).get "pass" = "" <;>
      simp [c1, c2, c3]
  refine ⟨GoMap.mk e2, _, ?_, ?_, ?_, ?_, rfl⟩
  · unfold ReadConfigFile.after
    simp only [hfold]
    cases err with
    | none =>
      by_cases c1 : (GoMap.mk es).get "host" = "" <;>
        by_cases c2 : (GoMap.mk es).get "user" = "" <;>
        by_cases c3 : (GoMap.mk es).get "pass" = "" <;>
        simp [missingConfig, c1, c2, c3] <;> decide
    | some e =>
      by_cases c1 : (GoMap.mk es).get "host" = "" <;>
        by_cases c2 : (GoMap.mk es).get "user" = "" <;>
        by_cases c3 : (GoMap.mk es).get "pass" = "" <;>
        simp [missingConfig, c1, c2, c3] <;> decide
  · simp only [g2, g1]
    by_cases c : (GoMap.mk es).get "port" = "" <;> simp [c]
  · simp only [g2, g1]; simp
  · intro k hk
    simp only [g2, g1]
    by_cases k1 : k = "port"
    · rw [k1] at hk; simp [k1, hk]
    · by_cases k2 : k = "use_tls"
      · rw [k2] at hk; simp [k2, hk]
      · simp [k1, k2]

/-- C10: `CheckHeaders` returns nil exactly when `From` is not empty, `To` has
a recipient and `Subject` is not empty; otherwise it returns the error whose
message is the messages of the missing fields, in the order from, to,
subject, joined by "; ". The sender `Name` plays no part. -/
theorem C10_CheckHeaders (hdr : EmailHeader) :
    (hdr.CheckHeaders = none ↔ hdr.From ≠ "" ∧ hdr.To ≠ [] ∧ hdr.Subject ≠ "") ∧
    hdr.CheckHeaders =
      (if missingHeaders hdr = [] then none
       else some ("; ".intercalate (missingHeaders hdr))) ∧
    (∀ name : String, ({ hdr with Name := name } : EmailHeader).CheckHeaders
      = hdr.CheckHeaders) := by
  refine ⟨?_, ?_, fun _ => rfl⟩
  · by_cases h1 : hdr.From = "" <;> by_cases h2 : hdr.To = [] <;>
      by_cases h3 : hdr.Subject = "" <;>
      simp [EmailHeader.CheckHeaders, h1, h2, h3]
  · by_cases h1 : hdr.From = "" <;> by_cases h2 : hdr.To = [] <;>
      by_cases h3 : hdr.Subject = "" <;>
      simp [EmailHeader.CheckHeaders, missingHeaders, h1, h2, h3] <;> decide

end emailutils

/-! ## Sample runs -/

theorem sample_frame_after_error :
    smartparallel.CheckSerialInput (fun c => 2 * c + 1) 5
      (smartparallel.Port.feed
        [smartparallel.ok 65, smartparallel.ok 66, smartparallel.failed "EOF"]
        (fun _ => smartparallel.idle))
      { arr := [1], len := 1 } = .ret (2, [65, 66]) := by decide

theorem sample_split : strings.Split "a=b=c" '=' = ["a", "b", "c"] := by decide

theorem sample_config_file :
    fileutils.ReadConfigFile
        (.ok ["# c", " a = b=c ", "", "k", "a=2", "x=  ", " ;x", "=v", " y = = "]) =
      some (.mk [("y", "="), ("", "v"), ("x", ""), ("a", "2"), ("k", "")], none) := by decide

theorem sample_email_config :
    emailutils.ReadConfigFile (.ok ["host=h", "user=u", "pass=p", "use_tls=yes"]) =
      some (.mk [("port", "465"), ("use_tls", "yes"), ("pass", "p"), ("user", "u"),
        ("host", "h")], none) := by decide

theorem sample_email_config_missing :
    emailutils.ReadConfigFile (.ok ["host=h", "user=u"]) =
      some (.mk [("use_tls", "no"), ("port", "587"), ("user", "u"), ("host", "h")],
        some "Missing config value: pass") := by decide
